import Mathlib

/-!
# Verification of the sparse-kernel core of the ginkgo fork

Shallow embedding of the kernels in
`src/common/matrix/csr_kernels_spgemm.hpp.inc`,
`src/common/matrix/ell_kernels.hpp.inc`,
`src/common/matrix/hybrid_kernels.hpp.inc`,
the distributed dense apply in `src/unnamed/part_002`, and the executor
device-reset bookkeeping in `src/unnamed/part_001`, together with proofs of
the specification claims about them.

Device kernels are data-parallel; we embed each kernel's sequential
semantics: a warp cooperating on one row of the output becomes a sequential
loop over that row, warp reductions become list/`Finset` sums, and the
shift-register / heap storage of the SpGEMM merge becomes a list of explicit
streams (one stream per merged row of B), which is the state those memory
layouts represent.
-/

namespace Gko

/-- CSR storage: `src/unnamed/part_000` data model and the kernel arguments of
`spgemm_count` / `spgemm_kernel` (`csr_kernels_spgemm.hpp.inc:491-577`):
`row_ptrs` has `num_rows + 1` entries, row `i` owns the index/value range
`[row_ptrs[i], row_ptrs[i+1])`. -/
structure Csr (V : Type) where
  num_rows : Nat
  num_cols : Nat
  row_ptrs : List Nat
  col_idxs : List Nat
  values : List V

namespace Csr

/-- The stored `(column, value)` pairs of row `i`: the slice
`[row_ptrs[i], row_ptrs[i+1])` of the parallel arrays. -/
def row {V : Type} (m : Csr V) (i : Nat) : List (Nat × V) :=
  ((m.col_idxs.zip m.values).drop (m.row_ptrs.getD i 0)).take
    (m.row_ptrs.getD (i + 1) 0 - m.row_ptrs.getD i 0)

/-- CSR well-formedness: `row_ptrs` has length `num_rows + 1`, is monotone,
ends at `nnz`; the index/value arrays have length `nnz`; each row's stored
columns are strictly increasing and in bounds. -/
def Wf {V : Type} (m : Csr V) : Prop :=
  m.row_ptrs.length = m.num_rows + 1 ∧
  m.row_ptrs.getD m.num_rows 0 = m.col_idxs.length ∧
  m.values.length = m.col_idxs.length ∧
  (∀ j, j < m.row_ptrs.length → ∀ i, i < j + 1 →
    m.row_ptrs.getD i 0 ≤ m.row_ptrs.getD j 0) ∧
  (∀ i, i < m.num_rows →
    ((m.row i).map Prod.fst).Pairwise (· < ·) ∧
    ∀ c ∈ (m.row i).map Prod.fst, c < m.num_cols)

instance {V : Type} [DecidableEq V] (m : Csr V) : Decidable m.Wf := by
  unfold Wf; infer_instance

end Csr

/-- The sum of the stored values at column `j` in a row list (0 when the
column is absent); with strictly increasing columns this is the unique stored
value, i.e. the CSR→Dense entry at that column. -/
def rowValueAt {V : Type} [AddCommMonoid V] (j : Nat) (r : List (Nat × V)) : V :=
  ((r.filter (fun p => p.1 = j)).map Prod.snd).sum

/-- CSR→Dense conversion: entry `(i, j)` of the dense image of `m`. -/
def csrDense {V : Type} [AddCommMonoid V] (m : Csr V) (i j : Nat) : V :=
  rowValueAt j (m.row i)

/-! ## The SpGEMM multiway merge (`csr_kernels_spgemm.hpp.inc:4-434`)

Each variant (short / medium / large) merges, for one row of A, the rows
`B[a_col]` weighted by `a_val`.  The hardware state (a shift register per
subwarp in the short variant, the register/shared/global heap in the medium
and large variants) always represents the same thing: one stream per stored
entry of the A row, holding the A value and the not-yet-consumed suffix of
the corresponding B row.  One loop iteration finds the minimal head column
(`min_col`, reductions at lines 42-46, 178, 353), sums `a_val * b_val` over
the streams whose head has that column (lines 51-60, 182-188, 358-365), and
advances those streams (lines 65-83, 191-194, 369-372).  We embed this
sequential semantics with explicit streams and a fuel-bounded loop; fuel
`totalLen` (the total number of unconsumed B entries) suffices because every
iteration consumes at least one entry. -/

/-- One merge stream: the A value weighting a row of B, and the unconsumed
suffix of that B row (head = the subwarp register / heap top; an exhausted
stream is the `sentinel` state of `checked_load`). -/
structure MergeStream (V : Type) where
  aval : V
  rest : List (Nat × V)

/-- Minimum of a list of naturals, `none` for the empty list (the source's
warp-wide `min` reduction, where exhausted streams hold the sentinel). -/
def listMin : List Nat → Option Nat
  | [] => none
  | x :: xs =>
    match listMin xs with
    | none => some x
    | some y => some (min x y)

/-- The head columns of the non-exhausted streams. -/
def headCols {V : Type} (ss : List (MergeStream V)) : List Nat :=
  ss.filterMap (fun s => s.rest.head?.map Prod.fst)

/-- The warp-wide product sum for the minimal column `m`: streams whose head
column equals `m` contribute `a_val * b_val` (lines 51-60 / 182-188). -/
def emitVal {V : Type} [Mul V] [AddCommMonoid V] [Zero V]
    (ss : List (MergeStream V)) (m : Nat) : V :=
  (ss.map (fun s =>
    match s.rest.head? with
    | some (c, v) => if c = m then s.aval * v else 0
    | none => 0)).sum

/-- Advance one stream if its head column is the minimal column `m`
(`b_idx++` and the register / heap reload, lines 65-83 / 191-194 /
369-372). -/
def advanceStream {V : Type} (m : Nat) (s : MergeStream V) : MergeStream V :=
  match s.rest.head? with
  | some (c, _) => if c = m then { s with rest := s.rest.tail } else s
  | none => s

/-- Advance every stream whose head column is the minimal column. -/
def advance {V : Type} (ss : List (MergeStream V)) (m : Nat) :
    List (MergeStream V) :=
  ss.map (advanceStream m)

/-- Total number of unconsumed B entries over all streams. -/
def totalLen {V : Type} (ss : List (MergeStream V)) : Nat :=
  (ss.map (fun s => s.rest.length)).sum

/-- The merge loop, fuel-bounded: emit `(min_col, product sum)` and advance
until every stream is exhausted.  `totalLen ss` fuel suffices. -/
def mergeFuel {V : Type} [Mul V] [AddCommMonoid V] :
    Nat → List (MergeStream V) → List (Nat × V)
  | 0, _ => []
  | fuel + 1, ss =>
    match listMin (headCols ss) with
    | none => []
    | some m => (m, emitVal ss m) :: mergeFuel fuel (advance ss m)

/-- The emission sequence of the multiway merge: one `(column, value)` pair
per `col_cb` call, in traversal order. -/
def merge {V : Type} [Mul V] [AddCommMonoid V]
    (ss : List (MergeStream V)) : List (Nat × V) :=
  mergeFuel (totalLen ss) ss

/-- The short-row variant (`spgemm_multiway_merge_short`, lines 4-85) runs a
`do`-`while` loop, so when every selected B row is already empty the body
still executes once: `min_col` is the sentinel `S` and `col_cb`/`step_cb`
fire once with `(S, 0)` (lines 61-63) before `warp.any(b_col < sentinel)`
terminates the loop.  Otherwise every iteration starts with a live stream and
the loop is exactly `merge`. -/
def mergeShort {V : Type} [Mul V] [AddCommMonoid V]
    (S : Nat) (ss : List (MergeStream V)) : List (Nat × V) :=
  if ss.all (fun s => s.rest.isEmpty) then [(S, 0)] else merge ss

/-- `spgemm_child_count` (`csr_kernels_spgemm.hpp.inc:2`). -/
def spgemm_child_count : Nat := 2

/-- The three tiers of `spgemm_multiway_merge_dispatch`. -/
inductive SpgemmTier
  | short (max_num_rows : Nat)
  | medium
  | large
deriving DecidableEq

/-- Whether a tier is a short-row (shift-register) variant. -/
def SpgemmTier.isShort : SpgemmTier → Bool
  | .short _ => true
  | _ => false

/-- The tier chosen by `spgemm_multiway_merge_dispatch`
(`csr_kernels_spgemm.hpp.inc:454-487`) as a function of the A row length
`a_size` and `config::warp_size`. -/
def spgemmDispatchTier (warp_size a_size : Nat) : SpgemmTier :=
  if a_size ≤ 2 then .short 2
  else if a_size ≤ 4 then .short 4
  else if a_size ≤ 8 then .short 8
  else if a_size ≤ 16 then .short 16
  else if a_size ≤ 32 then .short 32
  else if a_size ≤ warp_size then .short warp_size
  else if a_size ≤ warp_size * (spgemm_child_count + 1) then .medium
  else .large

/-- Emission sequence of `spgemm_multiway_merge_dispatch`: a short tier runs
the `do`-`while` short variant, the medium and large tiers fire `col_cb`
only on a strict increase of `min_col` (lines 216-220, 427-432), which
yields exactly `merge` (no sentinel emission when all rows are empty). -/
def mergeDispatch {V : Type} [Mul V] [AddCommMonoid V]
    (S warp_size a_size : Nat) (ss : List (MergeStream V)) :
    List (Nat × V) :=
  match spgemmDispatchTier warp_size a_size with
  | .short _ => mergeShort S ss
  | .medium => merge ss
  | .large => merge ss

/-- The streams for row `i` of A: one per stored entry `(a_col, a_val)` of
the row, holding the full B row `B[a_col]` (`spgemm_count:506-521`,
`spgemm_kernel:547-575` pass `a_cols + a_begin`, `a_vals + a_begin` and the
B arrays to the dispatch). -/
def streamsOf {V : Type} (A B : Csr V) (i : Nat) : List (MergeStream V) :=
  (A.row i).map (fun e => MergeStream.mk e.2 (B.row e.1))

/-- Erase all values from the streams: the counting pass instantiates the
merge with `use_val = false` and null value pointers
(`spgemm_count:518-521`), so every loaded value is `zero<ValueType>()`. -/
def eraseVals {V : Type} [Zero V] (ss : List (MergeStream V)) :
    List (MergeStream V) :=
  ss.map (fun s => MergeStream.mk 0 (s.rest.map (fun p => (p.1, (0 : V)))))

/-- Per-row behaviour of `spgemm_count` (`csr_kernels_spgemm.hpp.inc:491-526`):
`a_size = 0` counts nothing; `a_size = 1` reports the length of the single
B row from the row pointers (lines 514-516); otherwise the count is the
number of `col_cb` calls of the value-less merge. -/
def spgemm_count_row {V : Type} [Mul V] [AddCommMonoid V]
    (S warp_size : Nat) (A B : Csr V) (i : Nat) : Nat :=
  if A.row_ptrs.getD (i + 1) 0 - A.row_ptrs.getD i 0 = 0 then 0
  else if A.row_ptrs.getD (i + 1) 0 - A.row_ptrs.getD i 0 = 1 then
    B.row_ptrs.getD (A.col_idxs.getD (A.row_ptrs.getD i 0) 0 + 1) 0 -
      B.row_ptrs.getD (A.col_idxs.getD (A.row_ptrs.getD i 0) 0) 0
  else
    (mergeDispatch S warp_size (A.row_ptrs.getD (i + 1) 0 - A.row_ptrs.getD i 0)
      (eraseVals (streamsOf A B i))).length

/-- Per-row behaviour of `spgemm_kernel` (`csr_kernels_spgemm.hpp.inc:529-577`):
the list of `(col, value)` pairs written for row `i`, in write order.
`a_size = 1` copies the B row scaled by the single A value (lines 563-571);
otherwise each `col_cb` call writes the column and the value accumulated by
`step_cb` since the previous call, which is the merge emission. -/
def spgemm_kernel_row {V : Type} [Mul V] [AddCommMonoid V]
    (S warp_size : Nat) (A B : Csr V) (i : Nat) : List (Nat × V) :=
  if A.row_ptrs.getD (i + 1) 0 - A.row_ptrs.getD i 0 = 0 then []
  else if A.row_ptrs.getD (i + 1) 0 - A.row_ptrs.getD i 0 = 1 then
    (B.row (A.col_idxs.getD (A.row_ptrs.getD i 0) 0)).map
      (fun e => (e.1, A.values.getD (A.row_ptrs.getD i 0) 0 * e.2))
  else
    mergeDispatch S warp_size (A.row_ptrs.getD (i + 1) 0 - A.row_ptrs.getD i 0)
      (streamsOf A B i)

/-- Exclusive prefix scan: `[0, c₀, c₀+c₁, …]`, the row-pointer array built
from per-row counts. -/
def prefixSum : List Nat → List Nat
  | [] => [0]
  | x :: xs => 0 :: (prefixSum xs).map (x + ·)

/-- The per-row counts of the counting pass over all rows. -/
def spgemmCounts {V : Type} [Mul V] [AddCommMonoid V]
    (S warp_size : Nat) (A B : Csr V) : List Nat :=
  (List.range A.num_rows).map (spgemm_count_row S warp_size A B)

/-- The output row lengths of the value pass over all rows. -/
def spgemmOutLens {V : Type} [Mul V] [AddCommMonoid V]
    (S warp_size : Nat) (A B : Csr V) : List Nat :=
  (List.range A.num_rows).map (fun i => (spgemm_kernel_row S warp_size A B i).length)

/-- The weighted sum of the value of column `j` over the streams, i.e. the
exact row-`i` dense product entry restricted to the merged B rows. -/
def contrib {V : Type} [Mul V] [AddCommMonoid V]
    (ss : List (MergeStream V)) (j : Nat) : V :=
  (ss.map (fun s => s.aval * rowValueAt j s.rest)).sum

/-- All columns stored in some stream's unconsumed suffix. -/
def streamCols {V : Type} (ss : List (MergeStream V)) : List Nat :=
  ss.flatMap (fun s => s.rest.map Prod.fst)

/-- Stream well-formedness: every stream's unconsumed B-row suffix has
strictly increasing columns (CSR rows are sorted). -/
def StreamsWf {V : Type} (ss : List (MergeStream V)) : Prop :=
  ∀ s ∈ ss, (s.rest.map Prod.fst).Pairwise (· < ·)

/-! ## ELL SpMV (`ell_kernels.hpp.inc:37-153`)

ELL stores a column-major tile: entry `(r, idx)` of the tile lives at flat
index `r + idx * stride`.  We embed the raw `val`/`col` arrays as total
functions of the flat index, mirroring the kernel's pointer arithmetic, and
the worker loop as a fuel-bounded recursion (`idx` strictly increases by
`step ≥ 1` each iteration and the loop runs while
`idx < num_stored_elements_per_row`, so `num_stored_elements_per_row` fuel
suffices). -/

/-- The ELL kernel arguments of `spmv_kernel` (`ell_kernels.hpp.inc:39-44`):
raw arrays as functions of the flat index, plus the dense operand `b` with
its stride. -/
structure EllArgs (V : Type) where
  num_rows : Nat
  num_cols : Nat
  stride : Nat
  num_stored_elements_per_row : Nat
  val : Nat → V
  col : Nat → Nat
  b : Nat → V
  b_stride : Nat

namespace EllArgs

/-- One term of the worker loop body (`ell_kernels.hpp.inc:60` / `87`):
`val[ind] * b[col_idx * b_stride + column_id]` at `ind = r + idx * stride`. -/
def term {V : Type} [Mul V] (e : EllArgs V) (r column_id idx : Nat) : V :=
  e.val (r + idx * e.stride) * e.b (e.col (r + idx * e.stride) * e.b_stride + column_id)

/-- The worker loop (`ell_kernels.hpp.inc:54-62` with `step = 1`, and
`80-89` with `start = worker_id * num_thread_per_worker + idx_in_worker`,
`step = num_worker_per_row * num_thread_per_worker`): accumulate `term`
while `idx < num_stored_elements_per_row`, and `break` as soon as the
stored column index satisfies `col_idx < idx` (the padding sentinel rule). -/
def loop {V : Type} [Mul V] [AddCommMonoid V] (e : EllArgs V)
    (r column_id : Nat) : Nat → Nat → Nat → V
  | 0, _, _ => 0
  | fuel + 1, idx, step =>
    if idx < e.num_stored_elements_per_row then
      if e.col (r + idx * e.stride) < idx then 0
      else e.term r column_id idx + e.loop r column_id fuel (idx + step) step
    else 0

/-- The single-worker row result `temp` (`ell_kernels.hpp.inc:52-62`). -/
def rowTemp {V : Type} [Mul V] [AddCommMonoid V] (e : EllArgs V)
    (r column_id : Nat) : V :=
  e.loop r column_id e.num_stored_elements_per_row 0 1

/-- The first in-row position whose stored column index is smaller than the
position (the position where the single-worker loop `break`s), or
`num_stored_elements_per_row` when no such position exists. -/
def breakPos {V : Type} (e : EllArgs V) (r : Nat) : Nat :=
  go e.num_stored_elements_per_row 0
where
  go : Nat → Nat → Nat
    | 0, idx => idx
    | fuel + 1, idx =>
      if idx < e.num_stored_elements_per_row then
        if e.col (r + idx * e.stride) < idx then idx else go fuel (idx + 1)
      else idx

/-- The simple SpMV kernel (`ell_kernels.hpp.inc:107-118`,
`num_thread_per_worker = 1`): the closure is `fun x y => x`, so the output
entry is the row temp. -/
def spmv_simple {V : Type} [Mul V] [AddCommMonoid V] (e : EllArgs V)
    (r column_id : Nat) : V :=
  e.rowTemp r column_id

/-- The non-atomic alpha/beta SpMV kernel (`ell_kernels.hpp.inc:145-152`):
closure `fun x y => alpha * x + beta * y` applied to the row temp and the
old output entry. -/
def spmv_advanced {V : Type} [Mul V] [AddCommMonoid V] (e : EllArgs V)
    (alpha beta : V) (c_old : Nat → Nat → V) (r column_id : Nat) : V :=
  alpha * e.rowTemp r column_id + beta * c_old r column_id

/-- The sum of all worker partials of one row in the multi-worker kernel
(`ell_kernels.hpp.inc:66-99`): worker `w` has `num_thread_per_worker`
threads, thread `t` of worker `w` runs the loop from
`w * num_thread_per_worker + t` with step
`num_worker_per_row * num_thread_per_worker`; the per-worker partials are
accumulated through shared-memory `atomic_add` and the per-row total through
the output `atomic_add`, so the row's net sum is the sum over all workers
and threads. -/
def workerTotal {V : Type} [Mul V] [AddCommMonoid V] (e : EllArgs V)
    (num_worker_per_row num_thread_per_worker : Nat) (r column_id : Nat) : V :=
  ∑ w ∈ Finset.range num_worker_per_row, ∑ t ∈ Finset.range num_thread_per_worker,
    e.loop r column_id e.num_stored_elements_per_row
      (w * num_thread_per_worker + t) (num_worker_per_row * num_thread_per_worker)

/-- The atomic alpha/beta SpMV kernel (`ell_kernels.hpp.inc:138-144`): the
closure is `fun x y => alpha * x`, every worker `atomic_add`s its scaled
partial onto the output (line 95), so the kernel adds `alpha * (A·b)` onto
whatever `c` already holds. -/
def spmv_atomic_kernel {V : Type} [Mul V] [AddCommMonoid V] (e : EllArgs V)
    (alpha : V) (num_worker_per_row num_thread_per_worker : Nat)
    (c_in : Nat → Nat → V) (r column_id : Nat) : V :=
  c_in r column_id + alpha * e.workerTotal num_worker_per_row num_thread_per_worker r column_id

/-- Modelled from the spec: the device-side host wrapper that launches the
atomic ELL kernel is not under `src/`; per the kernel's own comment
(`ell_kernels.hpp.inc:133-137`, "the cuda kernel only computes
alpha * a * b when it uses atomic operation") and the spec contract
`apply(α, b, β, c)` computes `c ← α A b + β c`, the wrapper first scales
`c` by `beta` and then launches the atomic kernel. -/
def apply_atomic {V : Type} [Mul V] [AddCommMonoid V] (e : EllArgs V)
    (alpha beta : V) (num_worker_per_row num_thread_per_worker : Nat)
    (c_old : Nat → Nat → V) (r column_id : Nat) : V :=
  e.spmv_atomic_kernel alpha num_worker_per_row num_thread_per_worker
    (fun r' c' => beta * c_old r' c') r column_id

/-- ELL validity (spec data model: "padding entries have `col_idx = row` and
`value = 0`", real entries sorted by column): `len r` real entries with
strictly increasing column indices in bounds, every later position padded
with `col_idx = r`, `value = 0`. -/
def Valid {V : Type} [Zero V] (e : EllArgs V) (len : Nat → Nat) : Prop :=
  ∀ r, r < e.num_rows →
    len r ≤ e.num_stored_elements_per_row ∧
    (∀ i, i < len r →
      (i + 1 < len r →
        e.col (r + i * e.stride) < e.col (r + (i + 1) * e.stride)) ∧
      e.col (r + i * e.stride) < e.num_cols) ∧
    (∀ i, i < e.num_stored_elements_per_row → len r ≤ i →
      e.col (r + i * e.stride) = r ∧ e.val (r + i * e.stride) = 0)

instance {V : Type} [Zero V] [DecidableEq V] (e : EllArgs V)
    (len : Nat → Nat) : Decidable (e.Valid len) := by
  unfold Valid
  infer_instance

/-- The dense image of the ELL matrix: entry `(r, c)` sums the real stored
values at column `c`. -/
def dense {V : Type} [AddCommMonoid V] (e : EllArgs V) (len : Nat → Nat)
    (r c : Nat) : V :=
  ∑ i ∈ Finset.range (len r), if e.col (r + i * e.stride) = c then e.val (r + i * e.stride) else 0

/-- The matrix-vector product `(A·b)` at row `r`, right-hand-side column
`column_id`, over the dense image. -/
def matvec {V : Type} [NonUnitalNonAssocSemiring V] (e : EllArgs V)
    (len : Nat → Nat) (r column_id : Nat) : V :=
  ∑ c ∈ Finset.range e.num_cols, e.dense len r c * e.b (c * e.b_stride + column_id)

end EllArgs

/-! ## ELL→CSR conversion kernels (`ell_kernels.hpp.inc:190-239`) and the
Hybrid fill (`hybrid_kernels.hpp.inc:47-127`) -/

/-- `count_nnz_per_row` (`ell_kernels.hpp.inc:190-214`): the warp covering
row `r` counts, over in-row positions `i < max_nnz_per_row`, the positions
with `values[stride * i + r] ≠ 0` and reduces the partial counts. -/
def count_nnz_per_row {V : Type} [Zero V] [DecidableEq V]
    (max_nnz_per_row stride : Nat) (values : Nat → V) (r : Nat) : Nat :=
  ((List.range max_nnz_per_row).filter (fun i => values (stride * i + r) ≠ 0)).length

/-- The `(col, value)` pairs `fill_in_csr` (`ell_kernels.hpp.inc:218-239`)
writes for row `r`, in write order: positions `i < max_nnz_per_row` with a
non-zero source value, written consecutively from `result_row_ptrs[r]`. -/
def ellFillWrites {V : Type} [Zero V] [DecidableEq V]
    (max_nnz_per_row stride : Nat) (values : Nat → V) (cols : Nat → Nat)
    (r : Nat) : List (Nat × V) :=
  ((List.range max_nnz_per_row).filter (fun i => values (r + stride * i) ≠ 0)).map
    (fun i => (cols (r + stride * i), values (r + stride * i)))

/-- The absolute output positions of the row-`r` writes of `fill_in_csr`:
`write_to` starts at `result_row_ptrs[r]` and increments per write. -/
def ellFillPositions {V : Type} [Zero V] [DecidableEq V]
    (max_nnz_per_row stride : Nat) (values : Nat → V) (cols : Nat → Nat)
    (row_ptrs : Nat → Nat) (r : Nat) : List Nat :=
  (List.range (ellFillWrites max_nnz_per_row stride values cols r).length).map
    (fun j => row_ptrs r + j)

/-- Net per-row count of `count_coo_row_nnz` (`hybrid_kernels.hpp.inc:49-92`):
each COO index `ind < nnz` contributes `val[ind] != zero` (line 67 / 83) to
`nnz_per_row[row[ind]]` — the grid covers each index once and the segmented
scan attributes every contribution to its `curr_row` before the
`atomic_add` (the `segment_scan` helper itself is not under `src/`; this is
the net effect its call sites compute). -/
def count_coo_row_nnz {V : Type} [Zero V] [DecidableEq V]
    (nnz : Nat) (val : Nat → V) (row : Nat → Nat) (r : Nat) : Nat :=
  ((List.range nnz).filter (fun ind => row ind = r ∧ val ind ≠ 0)).length

/-- The `(col, value)` pairs the Hybrid `fill_in_csr`
(`hybrid_kernels.hpp.inc:96-127`) writes for row `r`: first the non-zero
ELL entries of the row (lines 111-118), then the non-zero COO entries of
the range `[coo_offset[r], coo_offset[r+1])` (lines 119-125). -/
def hybridFillWrites {V : Type} [Zero V] [DecidableEq V]
    (max_nnz_per_row stride : Nat) (ell_val : Nat → V) (ell_col : Nat → Nat)
    (coo_val : Nat → V) (coo_col : Nat → Nat) (coo_offset : Nat → Nat)
    (r : Nat) : List (Nat × V) :=
  ellFillWrites max_nnz_per_row stride ell_val ell_col r ++
    (((List.range' (coo_offset r) (coo_offset (r + 1) - coo_offset r)).filter
        (fun i => coo_val i ≠ 0)).map (fun i => (coo_col i, coo_val i)))

/-! ## Distributed dense apply (`src/unnamed/part_002:233-250`)

A rank's piece of a row-partitioned dense object: the list of global rows it
owns (its `IndexSet`, ascending) and its local values indexed by local row
position.  `get_size()` is the local row count, `get_global_size()` the
global one. -/

/-- One rank's piece of a distributed dense object: owned global rows and
local values `(local row position, column) ↦ value`. -/
structure DistPart (V : Type) where
  own_rows : List Nat
  vals : Nat → Nat → V

/-- Position of global row `g` in an ownership list. -/
def findPos : List Nat → Nat → Option Nat
  | [], _ => none
  | x :: xs, g => if x = g then some 0 else (findPos xs g).map (· + 1)

/-- Modelled from the spec: `Dense::gather_on_all`
(`src/unnamed/part_002:784-816`) assembles the full vector on every rank via
`Array::gather_on_all` (an MPI all-gatherv whose implementation is not under
`src/`): global row `g` of the result holds the values of the rank owning
`g`. -/
def gather_on_all {V : Type} [Zero V] (parts : List (DistPart V)) :
    Nat → Nat → V
  | g, c =>
    match parts with
    | [] => 0
    | p :: ps =>
      match findPos p.own_rows g with
      | some pos => p.vals pos c
      | none => gather_on_all ps g c

/-- The local simple apply `dense::make_simple_apply` run by each rank: the
local matrix rows times the full right-hand-side vector. -/
def localApply {V : Type} [NonUnitalNonAssocSemiring V]
    (localA : Nat → Nat → V) (K : Nat) (bfull : Nat → Nat → V)
    (p c : Nat) : V :=
  ∑ k ∈ Finset.range K, localA p k * bfull k c

/-- `Dense::distributed_apply_impl` (`src/unnamed/part_002:233-250`): when
`b->get_size() == b->get_global_size()` (`flag`, line 241) the rank
multiplies its local matrix by `b` directly; otherwise it first gathers `b`
across all ranks (line 244) and multiplies by the gathered vector.  The
result stays indexed by the rank's local rows (`x` row-partitioned). -/
def distributed_apply_impl {V : Type} [NonUnitalNonAssocSemiring V]
    (localA : Nat → Nat → V) (K : Nat) (b : DistPart V) (global_rows : Nat)
    (all_b_parts : List (DistPart V)) : Nat → Nat → V :=
  if b.own_rows.length = global_rows then localApply localA K b.vals
  else localApply localA K (gather_on_all all_b_parts)

/-! ## Accelerator executor device-reset bookkeeping
(`src/unnamed/part_001:695-729, 1146, 1287-1303`)

A per-device trace of executor construction and destruction.
`increase_num_execs` / `decrease_num_execs` keep a mutex-guarded live
counter; each executor carries its own `device_reset_` flag
(`EnableDeviceReset`).  The reset call itself lives in the executor
implementation file, which is not under `src/`; per the in-source contract
(`part_001:696-700`: "`DeviceReset` is called only after destroying the last
Ginkgo executor … Setting this flag to an executor which is not destroyed
last has no effect") the callback fires at a destruction that leaves no live
executor on the device and whose destroyed executor has the flag set. -/

/-- A construction or destruction of an accelerator executor on one device. -/
inductive ExecEvent
  | create (id : Nat) (reset_flag : Bool)
  | destroy (id : Nat)
deriving DecidableEq

/-- Per-device bookkeeping state: the live executors with their
`device_reset_` flags, and how often the reset callback has fired. -/
structure DeviceState where
  live : List (Nat × Bool)
  fires : Nat
deriving DecidableEq

/-- One event step: creation registers the executor
(`increase_num_execs`); destruction removes it (`decrease_num_execs`) and,
modelled from the spec contract above, fires the reset callback iff no
executor remains live and the destroyed executor's `device_reset_` flag is
set. -/
def stepEvent (s : DeviceState) : ExecEvent → DeviceState
  | .create id flag => ⟨(id, flag) :: s.live, s.fires⟩
  | .destroy id =>
    let flag := ((s.live.find? (fun p => p.1 = id)).map Prod.snd).getD false
    let live' := s.live.filter (fun p => p.1 ≠ id)
    ⟨live', s.fires + if live'.isEmpty && flag then 1 else 0⟩

/-- Run a per-device event trace from the initial state (no live executor,
no reset fired). -/
def runTrace (es : List ExecEvent) : DeviceState :=
  es.foldl stepEvent ⟨[], 0⟩

/-- Number of reset-callback firings during a pure destruction phase
starting from live set `live`. -/
def destroyFires (live : List (Nat × Bool)) : List Nat → Nat
  | [] => 0
  | d :: ds =>
    let flag := ((live.find? (fun p => p.1 = d)).map Prod.snd).getD false
    let live' := live.filter (fun p => p.1 ≠ d)
    (if live'.isEmpty && flag then 1 else 0) + destroyFires live' ds

/-- The `device_reset_` flag of executor `d` in a live set. -/
def flagOf (live : List (Nat × Bool)) (d : Nat) : Bool :=
  ((live.find? (fun p => p.1 = d)).map Prod.snd).getD false

/-- The live set remaining after a pure destruction phase. -/
def destroyLive (live : List (Nat × Bool)) (ds : List Nat) :
    List (Nat × Bool) :=
  ds.foldl (fun l d => l.filter (fun q => q.1 ≠ d)) live

/-! ## `distributed_create` (`src/mpi/test/matrix/distributed_dense.cpp:113-123`) -/

/-- The executor variants of the data model (§4.B). -/
inductive ExecKind
  | omp
  | reference
  | cuda
  | hip
  | mpi
deriving DecidableEq

/-- The error taxonomy kinds relevant here (§7). -/
inductive GkoError
  | notSupported
  | notImplemented
deriving DecidableEq

/-- An empty distributed matrix bound to an executor. -/
structure DistCreated where
  kind : ExecKind
deriving DecidableEq

/-- Modelled from the spec: `Dense::distributed_create` is declared in the
matrix headers, which are not under `src/`; per §7 ("NotSupported —
operation cannot be performed on this object (e.g., `distributed_create` on
a non-distributed executor)") and the tests
`DistributedDense.DoesNotThrowForMpiExecutor` /
`ThrowsForOtherExecutors`, it constructs the empty distributed matrix on an
MPI executor and raises `NotSupported` otherwise; on error no object is
constructed (the result carries no partial matrix). -/
def distributed_create (k : ExecKind) : Except GkoError DistCreated :=
  if k = ExecKind.mpi then Except.ok ⟨k⟩ else Except.error GkoError.notSupported

/-! ## Concrete fixtures (used by witnesses) -/

/-- ELL image of the 2×2 matrix [[1,2],[0,3]] with stride 2 and 2 stored
entries per row; position `(r, idx)` lives at flat index `r + idx·stride`;
row 1 is padded at `idx = 1` with `col_idx = 1 = row`, `value = 0`. -/
def ellFixture : EllArgs Int :=
  ⟨2, 2, 2, 2, fun i => [1, 3, 2, 0].getD i 0, fun i => [0, 1, 1, 1].getD i 0,
   fun i => [1, 2].getD i 0, 1⟩

/-- Real row lengths of `ellFixture`. -/
def ellFixtureLen : Nat → Nat := fun r => [2, 1].getD r 0

/-- An old output vector for the alpha/beta fixtures. -/
def ellFixtureCold : Nat → Nat → Int := fun r _ => [5, 7].getD r 0

/-- Ground-truth global right-hand side for the distributed fixture
(`b = (10, 20)ᵀ`, one column). -/
def bglobFixture : Nat → Nat → Int := fun k _ => [10, 20].getD k 0

/-- Two-rank row partition of `bglobFixture`: rank 0 owns global row 0,
rank 1 owns global row 1. -/
def partsFixture : List (DistPart Int) :=
  [⟨[0], fun pos c => bglobFixture ([0].getD pos 0) c⟩,
   ⟨[1], fun pos c => bglobFixture ([1].getD pos 0) c⟩]

/-- Rank 1's piece of the distributed right-hand side. -/
def bPartFixture : DistPart Int :=
  ⟨[1], fun pos c => bglobFixture ([1].getD pos 0) c⟩

/-- Ground-truth global matrix [[1,2],[3,4]] for the distributed fixture. -/
def globalAFixture : Nat → Nat → Int :=
  fun g k => ([[1, 2], [3, 4]].getD g []).getD k 0

/-- Rank 1's local matrix: the rows of `globalAFixture` it owns
(global row 1). -/
def localAFixture : Nat → Nat → Int :=
  fun p k => globalAFixture ([1].getD p 0) k

/-! ## Supporting lemmas: the multiway merge -/

theorem listMin_mem {l : List Nat} {m : Nat} (h : listMin l = some m) : m ∈ l := by
  induction l with
  | nil => simp [listMin] at h
  | cons x xs ih =>
    simp only [listMin] at h
    cases hx : listMin xs with
    | none => rw [hx] at h; simp_all
    | some y =>
      rw [hx] at h
      simp only [Option.some.injEq] at h
      rcases min_choice x y with hmin | hmin <;> rw [hmin] at h
      · simp [← h]
      · exact List.mem_cons_of_mem x (ih (h ▸ hx))

theorem listMin_eq_none {l : List Nat} : listMin l = none ↔ l = [] := by
  cases l with
  | nil => simp [listMin]
  | cons x xs =>
    simp only [listMin]
    cases listMin xs <;> simp

theorem listMin_le : ∀ {l : List Nat} {m : Nat}, listMin l = some m →
    ∀ x ∈ l, m ≤ x := by
  intro l
  induction l with
  | nil => simp
  | cons x xs ih =>
    intro m h y hy
    simp only [listMin] at h
    cases hx : listMin xs with
    | none =>
      rw [hx] at h
      simp only [Option.some.injEq] at h
      have hnil : xs = [] := listMin_eq_none.mp hx
      subst hnil
      simp only [List.mem_singleton] at hy
      omega
    | some z =>
      rw [hx] at h
      simp only [Option.some.injEq] at h
      have h1 : min x z ≤ x := Nat.min_le_left _ _
      have h2 : min x z ≤ z := Nat.min_le_right _ _
      rcases List.mem_cons.mp hy with rfl | hy'
      · omega
      · have hz := ih hx y hy'
        omega

theorem headCols_eq_nil {V : Type} {ss : List (MergeStream V)} :
    headCols ss = [] ↔ ∀ s ∈ ss, s.rest = [] := by
  unfold headCols
  rw [List.filterMap_eq_nil_iff]
  constructor
  · intro h s hs
    have := h s hs
    cases hrest : s.rest with
    | nil => rfl
    | cons a t => rw [hrest] at this; simp at this
  · intro h s hs
    rw [h s hs]
    rfl

theorem totalLen_eq_zero {V : Type} {ss : List (MergeStream V)} :
    totalLen ss = 0 ↔ ∀ s ∈ ss, s.rest = [] := by
  unfold totalLen
  rw [List.sum_eq_zero_iff]
  constructor
  · intro h s hs
    have := h s.rest.length (List.mem_map_of_mem _ hs)
    exact List.length_eq_zero.mp this
  · intro h x hx
    obtain ⟨s, hs, rfl⟩ := List.mem_map.mp hx
    rw [h s hs]
    rfl

theorem mem_headCols {V : Type} {ss : List (MergeStream V)} {c : Nat} :
    c ∈ headCols ss ↔ ∃ s ∈ ss, ∃ v, s.rest.head? = some (c, v) := by
  unfold headCols
  rw [List.mem_filterMap]
  constructor
  · rintro ⟨s, hs, hmap⟩
    rcases Option.map_eq_some'.mp hmap with ⟨⟨c', v⟩, hh, rfl⟩
    exact ⟨s, hs, v, hh⟩
  · rintro ⟨s, hs, v, hh⟩
    exact ⟨s, hs, by rw [hh]; rfl⟩

theorem advanceStream_eq_of_head {V : Type} {m : Nat} {s : MergeStream V} {v : V}
    (hh : s.rest.head? = some (m, v)) :
    advanceStream m s = { s with rest := s.rest.tail } := by
  unfold advanceStream
  rw [hh]
  exact if_pos rfl

theorem advanceStream_eq_of_head_ne {V : Type} {m c : Nat} {s : MergeStream V}
    {v : V} (hh : s.rest.head? = some (c, v)) (hc : ¬ c = m) :
    advanceStream m s = s := by
  unfold advanceStream
  rw [hh]
  exact if_neg hc

theorem advanceStream_eq_of_none {V : Type} {m : Nat} {s : MergeStream V}
    (hh : s.rest.head? = none) : advanceStream m s = s := by
  unfold advanceStream
  rw [hh]

theorem advanceStream_length_le {V : Type} (m : Nat) (s : MergeStream V) :
    (advanceStream m s).rest.length ≤ s.rest.length := by
  cases hh : s.rest.head? with
  | none => rw [advanceStream_eq_of_none hh]
  | some p =>
    rcases p with ⟨c, v⟩
    by_cases hc : c = m
    · subst hc
      rw [advanceStream_eq_of_head hh]
      simp only [List.length_tail]
      omega
    · rw [advanceStream_eq_of_head_ne hh hc]

theorem advanceStream_length_lt {V : Type} {m : Nat} {s : MergeStream V} {v : V}
    (hh : s.rest.head? = some (m, v)) :
    (advanceStream m s).rest.length < s.rest.length := by
  rw [advanceStream_eq_of_head hh]
  simp only [List.length_tail]
  cases hr : s.rest with
  | nil => rw [hr] at hh; simp at hh
  | cons a t => simp

theorem totalLen_cons {V : Type} (s : MergeStream V) (ss : List (MergeStream V)) :
    totalLen (s :: ss) = s.rest.length + totalLen ss := by
  unfold totalLen
  simp

theorem totalLen_advance_le {V : Type} (ss : List (MergeStream V)) (m : Nat) :
    totalLen (advance ss m) ≤ totalLen ss := by
  unfold totalLen advance
  rw [List.map_map]
  apply List.sum_le_sum
  intro s _
  exact advanceStream_length_le m s

theorem totalLen_advance_lt {V : Type} {ss : List (MergeStream V)} {m : Nat}
    (h : ∃ s ∈ ss, ∃ v, s.rest.head? = some (m, v)) :
    totalLen (advance ss m) < totalLen ss := by
  induction ss with
  | nil => simp at h
  | cons s ss ih =>
    obtain ⟨s', hs', v, hh⟩ := h
    have hcons : advance (s :: ss) m = advanceStream m s :: advance ss m := rfl
    rw [hcons, totalLen_cons, totalLen_cons]
    rcases List.mem_cons.mp hs' with rfl | hmem
    · have h2 := advanceStream_length_lt hh
      have h3 := totalLen_advance_le ss m
      omega
    · have h4 := ih ⟨s', hmem, v, hh⟩
      have h6 := advanceStream_length_le m s
      omega

theorem totalLen_pos_of_min {V : Type} {ss : List (MergeStream V)} {m : Nat}
    (h : listMin (headCols ss) = some m) :
    ∃ s ∈ ss, ∃ v, s.rest.head? = some (m, v) :=
  mem_headCols.mp (listMin_mem h)

theorem mergeFuel_stable {V : Type} [Mul V] [AddCommMonoid V] :
    ∀ (fuel fuel' : Nat) (ss : List (MergeStream V)),
      totalLen ss ≤ fuel → totalLen ss ≤ fuel' →
      mergeFuel fuel ss = mergeFuel fuel' ss := by
  intro fuel
  induction fuel with
  | zero =>
    intro fuel' ss h h'
    have hz : totalLen ss = 0 := Nat.le_zero.mp h
    have hempty := totalLen_eq_zero.mp hz
    have hnil : headCols ss = [] := headCols_eq_nil.mpr hempty
    cases fuel' with
    | zero => rfl
    | succ n =>
      show mergeFuel 0 ss = mergeFuel (n + 1) ss
      rw [mergeFuel, mergeFuel, hnil]
      rfl
  | succ fuel ih =>
    intro fuel' ss h h'
    cases fuel' with
    | zero =>
      have hz : totalLen ss = 0 := Nat.le_zero.mp h'
      have hempty := totalLen_eq_zero.mp hz
      have hnil : headCols ss = [] := headCols_eq_nil.mpr hempty
      rw [mergeFuel, mergeFuel, hnil]
      rfl
    | succ n =>
      rw [mergeFuel, mergeFuel]
      cases hmin : listMin (headCols ss) with
      | none => rfl
      | some m =>
        have hlt := totalLen_advance_lt (totalLen_pos_of_min hmin)
        have heq := ih n (advance ss m) (by omega) (by omega)
        show (m, emitVal ss m) :: mergeFuel fuel (advance ss m) =
          (m, emitVal ss m) :: mergeFuel n (advance ss m)
        rw [heq]

theorem merge_eq {V : Type} [Mul V] [AddCommMonoid V]
    (ss : List (MergeStream V)) :
    merge ss = match listMin (headCols ss) with
      | none => []
      | some m => (m, emitVal ss m) :: merge (advance ss m) := by
  cases hmin : listMin (headCols ss) with
  | none =>
    unfold merge
    cases htl : totalLen ss with
    | zero => rfl
    | succ n => rw [mergeFuel, hmin]
  | some m =>
    obtain ⟨s, hs, v, hh⟩ := totalLen_pos_of_min hmin
    have hpos : 0 < totalLen ss := by
      have := totalLen_advance_lt (totalLen_pos_of_min hmin)
      omega
    obtain ⟨n, hn⟩ : ∃ n, totalLen ss = n + 1 := by
      cases htl : totalLen ss with
      | zero => omega
      | succ k => exact ⟨k, rfl⟩
    unfold merge
    rw [hn, mergeFuel, hmin]
    have hlt : totalLen (advance ss m) < n + 1 := by
      rw [← hn]; exact totalLen_advance_lt (totalLen_pos_of_min hmin)
    have heq := mergeFuel_stable n (totalLen (advance ss m)) (advance ss m)
      (by omega) (le_refl _)
    show (m, emitVal ss m) :: mergeFuel n (advance ss m) =
      (m, emitVal ss m) :: mergeFuel (totalLen (advance ss m)) (advance ss m)
    rw [heq]

theorem StreamsWf.advance {V : Type} {ss : List (MergeStream V)}
    (hwf : StreamsWf ss) (m : Nat) : StreamsWf (Gko.advance ss m) := by
  intro s' hs'
  obtain ⟨s, hs, rfl⟩ := List.mem_map.mp hs'
  have hp := hwf s hs
  cases hh : s.rest.head? with
  | none => rw [advanceStream_eq_of_none hh]; exact hp
  | some p =>
    rcases p with ⟨c, v⟩
    by_cases hc : c = m
    · subst hc
      rw [advanceStream_eq_of_head hh]
      cases hrest : s.rest with
      | nil => simp
      | cons q t =>
        rw [hrest] at hp
        simp only [List.map_cons] at hp
        exact (List.pairwise_cons.mp hp).2
    · rw [advanceStream_eq_of_head_ne hh hc]
      exact hp

theorem rowValueAt_nil {V : Type} [AddCommMonoid V] (j : Nat) :
    rowValueAt j ([] : List (Nat × V)) = 0 := rfl

theorem rowValueAt_cons {V : Type} [AddCommMonoid V] (j c : Nat) (v : V)
    (l : List (Nat × V)) :
    rowValueAt j ((c, v) :: l) = (if c = j then v else 0) + rowValueAt j l := by
  unfold rowValueAt
  rw [List.filter_cons]
  by_cases h : c = j
  · simp [h]
  · simp [h]

theorem rowValueAt_eq_zero_of_not_mem {V : Type} [AddCommMonoid V] {j : Nat}
    {l : List (Nat × V)} (h : j ∉ l.map Prod.fst) : rowValueAt j l = 0 := by
  induction l with
  | nil => rfl
  | cons p t ih =>
    rcases p with ⟨c, v⟩
    simp only [List.map_cons, List.mem_cons] at h
    push_neg at h
    rw [rowValueAt_cons, if_neg (fun hc => h.1 hc.symm), ih h.2, add_zero]

theorem rest_eq_head_cons {α : Type _} {l : List α} {a : α}
    (h : l.head? = some a) : l = a :: l.tail := by
  cases l with
  | nil => simp at h
  | cons x t =>
    simp only [List.head?_cons, Option.some.injEq] at h
    rw [h]
    rfl

theorem sorted_tail_gt {V : Type} {rest : List (Nat × V)}
    (hp : (rest.map Prod.fst).Pairwise (· < ·)) {c : Nat} {v : V}
    (hh : rest.head? = some (c, v)) : ∀ p ∈ rest.tail, c < p.1 := by
  intro p hp'
  rw [rest_eq_head_cons hh, List.map_cons] at hp
  exact (List.pairwise_cons.mp hp).1 p.1 (List.mem_map_of_mem _ hp')

theorem not_mem_cols_of_all_gt {V : Type} {l : List (Nat × V)} {m : Nat}
    (h : ∀ p ∈ l, m < p.1) : m ∉ l.map Prod.fst := by
  intro hmem
  obtain ⟨p, hp, hfst⟩ := List.mem_map.mp hmem
  have := h p hp
  omega

theorem rowValueAt_head_lt {V : Type} [AddCommMonoid V] {rest : List (Nat × V)}
    (hp : (rest.map Prod.fst).Pairwise (· < ·)) {c : Nat} {v : V}
    (hh : rest.head? = some (c, v)) {m : Nat} (hm : m < c) :
    rowValueAt m rest = 0 := by
  apply rowValueAt_eq_zero_of_not_mem
  apply not_mem_cols_of_all_gt
  intro p hpmem
  rw [rest_eq_head_cons hh] at hpmem
  rcases List.mem_cons.mp hpmem with rfl | hpmem'
  · exact hm
  · exact lt_trans hm (sorted_tail_gt hp hh p hpmem')

theorem emitVal_eq_contrib {V : Type} [NonUnitalNonAssocSemiring V]
    {ss : List (MergeStream V)} (hwf : StreamsWf ss) {m : Nat}
    (hmin : listMin (headCols ss) = some m) : emitVal ss m = contrib ss m := by
  unfold emitVal contrib
  congr 1
  apply List.map_congr_left
  intro s hs
  cases hh : s.rest.head? with
  | none =>
    have hnil : s.rest = [] := by
      cases hr : s.rest with
      | nil => rfl
      | cons a t => rw [hr] at hh; simp at hh
    rw [hnil, rowValueAt_nil, mul_zero]
  | some p =>
    rcases p with ⟨c, v⟩
    have hp := hwf s hs
    by_cases hc : c = m
    · subst hc
      have htail : rowValueAt c s.rest.tail = 0 :=
        rowValueAt_eq_zero_of_not_mem
          (not_mem_cols_of_all_gt (sorted_tail_gt hp hh))
      conv_rhs => rw [rest_eq_head_cons hh, rowValueAt_cons]
      rw [htail, add_zero]
      simp
    · simp only [if_neg hc]
      have hcmem : c ∈ headCols ss := mem_headCols.mpr ⟨s, hs, v, hh⟩
      have hle := listMin_le hmin c hcmem
      have hlt : m < c := lt_of_le_of_ne hle (fun h => hc h.symm)
      rw [rowValueAt_head_lt hp hh hlt, mul_zero]

theorem contrib_advance_ne {V : Type} [NonUnitalNonAssocSemiring V]
    (ss : List (MergeStream V)) {j m : Nat} (hj : j ≠ m) :
    contrib (advance ss m) j = contrib ss j := by
  unfold contrib advance
  rw [List.map_map]
  congr 1
  apply List.map_congr_left
  intro s hs
  simp only [Function.comp_apply]
  cases hh : s.rest.head? with
  | none => rw [advanceStream_eq_of_none hh]
  | some p =>
    rcases p with ⟨c, v⟩
    by_cases hc : c = m
    · subst hc
      rw [advanceStream_eq_of_head hh]
      conv_rhs => rw [rest_eq_head_cons hh, rowValueAt_cons]
      rw [if_neg (fun h => hj h.symm), zero_add]
    · rw [advanceStream_eq_of_head_ne hh hc]

theorem contrib_advance_self {V : Type} [NonUnitalNonAssocSemiring V]
    {ss : List (MergeStream V)} (hwf : StreamsWf ss) {m : Nat}
    (hmin : listMin (headCols ss) = some m) :
    contrib (advance ss m) m = 0 := by
  unfold contrib advance
  rw [List.map_map]
  apply List.sum_eq_zero
  intro x hx
  obtain ⟨s, hs, rfl⟩ := List.mem_map.mp hx
  simp only [Function.comp_apply]
  have hp := hwf s hs
  cases hh : s.rest.head? with
  | none =>
    rw [advanceStream_eq_of_none hh]
    have hnil : s.rest = [] := by
      cases hr : s.rest with
      | nil => rfl
      | cons a t => rw [hr] at hh; simp at hh
    rw [hnil, rowValueAt_nil, mul_zero]
  | some p =>
    rcases p with ⟨c, v⟩
    by_cases hc : c = m
    · subst hc
      rw [advanceStream_eq_of_head hh]
      have htail : rowValueAt c s.rest.tail = 0 :=
        rowValueAt_eq_zero_of_not_mem
          (not_mem_cols_of_all_gt (sorted_tail_gt hp hh))
      rw [htail, mul_zero]
    · rw [advanceStream_eq_of_head_ne hh hc]
      have hcmem : c ∈ headCols ss := mem_headCols.mpr ⟨s, hs, v, hh⟩
      have hle := listMin_le hmin c hcmem
      have hlt : m < c := lt_of_le_of_ne hle (fun h => hc h.symm)
      rw [rowValueAt_head_lt hp hh hlt, mul_zero]

theorem contrib_eq_zero_of_empty {V : Type} [NonUnitalNonAssocSemiring V]
    {ss : List (MergeStream V)} (h : ∀ s ∈ ss, s.rest = []) (j : Nat) :
    contrib ss j = 0 := by
  unfold contrib
  apply List.sum_eq_zero
  intro x hx
  obtain ⟨s, hs, rfl⟩ := List.mem_map.mp hx
  rw [h s hs, rowValueAt_nil, mul_zero]

theorem mergeFuel_rowValueAt {V : Type} [NonUnitalNonAssocSemiring V] :
    ∀ (fuel : Nat) (ss : List (MergeStream V)), totalLen ss ≤ fuel →
      StreamsWf ss → ∀ j, rowValueAt j (mergeFuel fuel ss) = contrib ss j := by
  intro fuel
  induction fuel with
  | zero =>
    intro ss h hwf j
    have hempty := totalLen_eq_zero.mp (Nat.le_zero.mp h)
    rw [show mergeFuel 0 ss = [] from rfl, rowValueAt_nil,
      contrib_eq_zero_of_empty hempty]
  | succ fuel ih =>
    intro ss h hwf j
    cases hmin : listMin (headCols ss) with
    | none =>
      have hempty := headCols_eq_nil.mp (listMin_eq_none.mp hmin)
      have hnil : mergeFuel (fuel + 1) ss = [] := by rw [mergeFuel, hmin]
      rw [hnil, rowValueAt_nil, contrib_eq_zero_of_empty hempty]
    | some m =>
      have hstep : mergeFuel (fuel + 1) ss =
          (m, emitVal ss m) :: mergeFuel fuel (advance ss m) := by
        rw [mergeFuel, hmin]
      have hlt := totalLen_advance_lt (totalLen_pos_of_min hmin)
      have ih' := ih (advance ss m) (by omega) (hwf.advance m) j
      rw [hstep, rowValueAt_cons, ih']
      by_cases hj : m = j
      · subst hj
        rw [if_pos rfl, emitVal_eq_contrib hwf hmin,
          contrib_advance_self hwf hmin, add_zero]
      · rw [if_neg hj, contrib_advance_ne ss (fun h' => hj h'.symm), zero_add]

theorem mem_streamCols {V : Type} {ss : List (MergeStream V)} {c : Nat} :
    c ∈ streamCols ss ↔ ∃ s ∈ ss, c ∈ s.rest.map Prod.fst := by
  unfold streamCols
  exact List.mem_flatMap

theorem streamCols_advance_subset {V : Type} (ss : List (MergeStream V))
    (m : Nat) : ∀ c ∈ streamCols (advance ss m), c ∈ streamCols ss := by
  intro c hc
  obtain ⟨s', hs', hcs⟩ := mem_streamCols.mp hc
  obtain ⟨s, hs, rfl⟩ := List.mem_map.mp hs'
  apply mem_streamCols.mpr
  refine ⟨s, hs, ?_⟩
  cases hh : s.rest.head? with
  | none => rw [advanceStream_eq_of_none hh] at hcs; exact hcs
  | some p =>
    rcases p with ⟨c', v⟩
    by_cases hc' : c' = m
    · subst hc'
      rw [advanceStream_eq_of_head hh] at hcs
      rw [rest_eq_head_cons hh, List.map_cons]
      exact List.mem_cons_of_mem _ hcs
    · rw [advanceStream_eq_of_head_ne hh hc'] at hcs
      exact hcs

theorem mem_streamCols_advance_of_ne {V : Type} {ss : List (MergeStream V)}
    {m c : Nat} (hc : c ∈ streamCols ss) (hne : c ≠ m) :
    c ∈ streamCols (advance ss m) := by
  obtain ⟨s, hs, hcs⟩ := mem_streamCols.mp hc
  apply mem_streamCols.mpr
  refine ⟨advanceStream m s, List.mem_map_of_mem _ hs, ?_⟩
  cases hh : s.rest.head? with
  | none => rw [advanceStream_eq_of_none hh]; exact hcs
  | some p =>
    rcases p with ⟨c', v⟩
    by_cases hc' : c' = m
    · subst hc'
      rw [advanceStream_eq_of_head hh]
      rw [rest_eq_head_cons hh, List.map_cons] at hcs
      rcases List.mem_cons.mp hcs with rfl | h'
      · exact absurd rfl hne
      · exact h'
    · rw [advanceStream_eq_of_head_ne hh hc']
      exact hcs

theorem min_mem_streamCols {V : Type} {ss : List (MergeStream V)} {m : Nat}
    (hmin : listMin (headCols ss) = some m) : m ∈ streamCols ss := by
  obtain ⟨s, hs, v, hh⟩ := totalLen_pos_of_min hmin
  apply mem_streamCols.mpr
  refine ⟨s, hs, ?_⟩
  rw [rest_eq_head_cons hh, List.map_cons]
  exact List.mem_cons_self _ _

theorem mergeFuel_cols {V : Type} [NonUnitalNonAssocSemiring V] :
    ∀ (fuel : Nat) (ss : List (MergeStream V)), totalLen ss ≤ fuel →
      ∀ c, c ∈ (mergeFuel fuel ss).map Prod.fst ↔ c ∈ streamCols ss := by
  intro fuel
  induction fuel with
  | zero =>
    intro ss h c
    have hempty := totalLen_eq_zero.mp (Nat.le_zero.mp h)
    rw [show mergeFuel 0 ss = ([] : List (Nat × V)) from rfl]
    simp only [List.map_nil, List.not_mem_nil, false_iff]
    intro hc
    obtain ⟨s, hs, hcs⟩ := mem_streamCols.mp hc
    rw [hempty s hs] at hcs
    simp at hcs
  | succ fuel ih =>
    intro ss h c
    cases hmin : listMin (headCols ss) with
    | none =>
      have hempty := headCols_eq_nil.mp (listMin_eq_none.mp hmin)
      have hnil : mergeFuel (fuel + 1) ss = ([] : List (Nat × V)) := by
        rw [mergeFuel, hmin]
      rw [hnil]
      simp only [List.map_nil, List.not_mem_nil, false_iff]
      intro hc
      obtain ⟨s, hs, hcs⟩ := mem_streamCols.mp hc
      rw [hempty s hs] at hcs
      simp at hcs
    | some m =>
      have hstep : mergeFuel (fuel + 1) ss =
          (m, emitVal ss m) :: mergeFuel fuel (advance ss m) := by
        rw [mergeFuel, hmin]
      have hlt := totalLen_advance_lt (totalLen_pos_of_min hmin)
      have ih' := ih (advance ss m) (by omega) c
      rw [hstep, List.map_cons, List.mem_cons, ih']
      constructor
      · rintro (rfl | hc)
        · exact min_mem_streamCols hmin
        · exact streamCols_advance_subset ss m c hc
      · intro hc
        by_cases hcm : c = m
        · exact Or.inl hcm
        · exact Or.inr (mem_streamCols_advance_of_ne hc hcm)

theorem merge_rowValueAt {V : Type} [NonUnitalNonAssocSemiring V]
    {ss : List (MergeStream V)} (hwf : StreamsWf ss) (j : Nat) :
    rowValueAt j (merge ss) = contrib ss j :=
  mergeFuel_rowValueAt (totalLen ss) ss (le_refl _) hwf j

theorem merge_cols {V : Type} [NonUnitalNonAssocSemiring V]
    (ss : List (MergeStream V)) (c : Nat) :
    c ∈ (merge ss).map Prod.fst ↔ c ∈ streamCols ss :=
  mergeFuel_cols (totalLen ss) ss (le_refl _) c

theorem all_isEmpty_iff {V : Type} {ss : List (MergeStream V)} :
    ss.all (fun s => s.rest.isEmpty) = true ↔ ∀ s ∈ ss, s.rest = [] := by
  rw [List.all_eq_true]
  constructor
  · intro h s hs
    exact List.isEmpty_iff.mp (h s hs)
  · intro h s hs
    exact List.isEmpty_iff.mpr (h s hs)

theorem mergeShort_rowValueAt {V : Type} [NonUnitalNonAssocSemiring V]
    {ss : List (MergeStream V)} (hwf : StreamsWf ss) (S j : Nat) :
    rowValueAt j (mergeShort S ss) = contrib ss j := by
  unfold mergeShort
  by_cases hall : ss.all (fun s => s.rest.isEmpty) = true
  · rw [if_pos hall, rowValueAt_cons, rowValueAt_nil,
      contrib_eq_zero_of_empty (all_isEmpty_iff.mp hall)]
    simp
  · rw [if_neg hall]
    exact merge_rowValueAt hwf j

theorem mergeShort_cols {V : Type} [NonUnitalNonAssocSemiring V]
    (ss : List (MergeStream V)) {S c : Nat} (hc : c ≠ S) :
    c ∈ (mergeShort S ss).map Prod.fst ↔ c ∈ streamCols ss := by
  unfold mergeShort
  by_cases hall : ss.all (fun s => s.rest.isEmpty) = true
  · rw [if_pos hall]
    simp only [List.map_cons, List.map_nil, List.mem_singleton]
    constructor
    · intro h; exact absurd h hc
    · intro h
      obtain ⟨s, hs, hcs⟩ := mem_streamCols.mp h
      rw [all_isEmpty_iff.mp hall s hs] at hcs
      simp at hcs
  · rw [if_neg hall]
    exact merge_cols ss c

theorem mergeDispatch_rowValueAt {V : Type} [NonUnitalNonAssocSemiring V]
    {ss : List (MergeStream V)} (hwf : StreamsWf ss) (S ws n j : Nat) :
    rowValueAt j (mergeDispatch S ws n ss) = contrib ss j := by
  unfold mergeDispatch
  cases spgemmDispatchTier ws n with
  | short mr => exact mergeShort_rowValueAt hwf S j
  | medium => exact merge_rowValueAt hwf j
  | large => exact merge_rowValueAt hwf j

theorem mergeDispatch_cols {V : Type} [NonUnitalNonAssocSemiring V]
    (ss : List (MergeStream V)) {S c : Nat} (hc : c ≠ S) (ws n : Nat) :
    c ∈ (mergeDispatch S ws n ss).map Prod.fst ↔ c ∈ streamCols ss := by
  unfold mergeDispatch
  cases spgemmDispatchTier ws n with
  | short mr => exact mergeShort_cols ss hc
  | medium => exact merge_cols ss c
  | large => exact merge_cols ss c

theorem headCols_eraseVals {V : Type} [Zero V] (ss : List (MergeStream V)) :
    headCols (eraseVals ss) = headCols ss := by
  induction ss with
  | nil => rfl
  | cons s t ih =>
    show headCols (MergeStream.mk 0 (s.rest.map (fun p => (p.1, (0 : V)))) :: eraseVals t)
      = headCols (s :: t)
    unfold headCols at *
    rw [List.filterMap_cons, List.filterMap_cons, ih]
    cases hr : s.rest with
    | nil => rfl
    | cons p u =>
      rcases p with ⟨c, v⟩
      rfl

theorem advance_eraseVals {V : Type} [Zero V] (ss : List (MergeStream V))
    (m : Nat) : advance (eraseVals ss) m = eraseVals (advance ss m) := by
  unfold advance eraseVals
  rw [List.map_map, List.map_map]
  apply List.map_congr_left
  intro s _
  simp only [Function.comp_apply]
  cases hh : s.rest.head? with
  | none =>
    have hh' : (MergeStream.mk (0 : V) (s.rest.map (fun p => (p.1, (0 : V))))).rest.head?
        = none := by
      show (s.rest.map (fun p => (p.1, (0 : V)))).head? = none
      rw [List.head?_map, hh]
      rfl
    rw [advanceStream_eq_of_none hh', advanceStream_eq_of_none hh]
  | some p =>
    rcases p with ⟨c, v⟩
    have hh' : (MergeStream.mk (0 : V) (s.rest.map (fun p => (p.1, (0 : V))))).rest.head?
        = some (c, (0 : V)) := by
      show (s.rest.map (fun p => (p.1, (0 : V)))).head? = _
      rw [List.head?_map, hh]
      rfl
    by_cases hc : c = m
    · subst hc
      rw [advanceStream_eq_of_head hh, advanceStream_eq_of_head hh']
      show MergeStream.mk (0 : V) ((s.rest.map (fun p => (p.1, (0 : V)))).tail)
        = MergeStream.mk (0 : V) (s.rest.tail.map (fun p => (p.1, (0 : V))))
      rw [← List.map_tail]
    · rw [advanceStream_eq_of_head_ne hh hc, advanceStream_eq_of_head_ne hh' hc]

theorem totalLen_eraseVals {V : Type} [Zero V] (ss : List (MergeStream V)) :
    totalLen (eraseVals ss) = totalLen ss := by
  unfold totalLen eraseVals
  rw [List.map_map]
  apply congrArg
  apply List.map_congr_left
  intro s _
  simp

theorem mergeFuel_length_eraseVals {V : Type} [NonUnitalNonAssocSemiring V] :
    ∀ (fuel : Nat) (ss : List (MergeStream V)),
      (mergeFuel fuel (eraseVals ss)).length = (mergeFuel fuel ss).length := by
  intro fuel
  induction fuel with
  | zero => intro ss; rfl
  | succ fuel ih =>
    intro ss
    rw [mergeFuel, mergeFuel, headCols_eraseVals]
    cases hmin : listMin (headCols ss) with
    | none => rfl
    | some m =>
      show ((m, emitVal (eraseVals ss) m) :: mergeFuel fuel (advance (eraseVals ss) m)).length
        = ((m, emitVal ss m) :: mergeFuel fuel (advance ss m)).length
      rw [List.length_cons, List.length_cons, advance_eraseVals, ih]

theorem merge_length_eraseVals {V : Type} [NonUnitalNonAssocSemiring V]
    (ss : List (MergeStream V)) :
    (merge (eraseVals ss)).length = (merge ss).length := by
  unfold merge
  rw [totalLen_eraseVals]
  exact mergeFuel_length_eraseVals (totalLen ss) ss

theorem all_isEmpty_eraseVals {V : Type} [Zero V] (ss : List (MergeStream V)) :
    (eraseVals ss).all (fun s => s.rest.isEmpty) = ss.all (fun s => s.rest.isEmpty) := by
  apply Bool.eq_iff_iff.mpr
  rw [all_isEmpty_iff, all_isEmpty_iff]
  constructor
  · intro h s hs
    have hmem : MergeStream.mk (0 : V) (s.rest.map (fun p => (p.1, (0 : V)))) ∈ eraseVals ss :=
      List.mem_map_of_mem _ hs
    have := h _ hmem
    exact List.map_eq_nil_iff.mp this
  · intro h s' hs'
    obtain ⟨s, hs, rfl⟩ := List.mem_map.mp hs'
    show s.rest.map (fun p => (p.1, (0 : V))) = []
    rw [h s hs]
    rfl

theorem mergeDispatch_length_eraseVals {V : Type} [NonUnitalNonAssocSemiring V]
    (S ws n : Nat) (ss : List (MergeStream V)) :
    (mergeDispatch S ws n (eraseVals ss)).length = (mergeDispatch S ws n ss).length := by
  unfold mergeDispatch
  cases spgemmDispatchTier ws n with
  | short mr =>
    unfold mergeShort
    rw [all_isEmpty_eraseVals]
    by_cases hall : ss.all (fun s => s.rest.isEmpty) = true
    · rw [if_pos hall, if_pos hall]
    · rw [if_neg hall, if_neg hall]
      exact merge_length_eraseVals ss
  | medium => exact merge_length_eraseVals ss
  | large => exact merge_length_eraseVals ss

/-! ## Supporting lemmas: CSR rows -/

theorem Csr.row_length {V : Type} (m : Csr V) (hm : m.Wf) (k : Nat) :
    (m.row k).length = m.row_ptrs.getD (k + 1) 0 - m.row_ptrs.getD k 0 := by
  obtain ⟨hlen, hlast, hvlen, hmono, -⟩ := hm
  unfold Csr.row
  rw [List.length_take, List.length_drop, List.length_zip, hvlen, Nat.min_self]
  by_cases hk : k + 1 < m.row_ptrs.length
  · have h1 : m.row_ptrs.getD (k + 1) 0 ≤ m.row_ptrs.getD m.num_rows 0 :=
      hmono m.num_rows (by omega) (k + 1) (by omega)
    rw [hlast] at h1
    have h2 : m.row_ptrs.getD (k + 1) 0 - m.row_ptrs.getD k 0 ≤
        m.col_idxs.length - m.row_ptrs.getD k 0 := by omega
    exact Nat.min_eq_left h2
  · have h2 : m.row_ptrs.getD (k + 1) 0 = 0 :=
      List.getD_eq_default _ _ (by omega)
    rw [h2]
    simp [Nat.min_eq_left]

theorem Csr.row_lt_num_rows {V : Type} (m : Csr V) (hm : m.Wf) {i : Nat}
    (h : 0 < m.row_ptrs.getD (i + 1) 0 - m.row_ptrs.getD i 0) :
    i < m.num_rows := by
  obtain ⟨hlen, -, -, -, -⟩ := hm
  by_contra hge
  push_neg at hge
  have : m.row_ptrs.getD (i + 1) 0 = 0 :=
    List.getD_eq_default _ _ (by omega)
  omega

theorem Csr.row_singleton {V : Type} [Zero V] (m : Csr V) (hm : m.Wf) (i : Nat)
    (h1 : m.row_ptrs.getD (i + 1) 0 - m.row_ptrs.getD i 0 = 1) :
    m.row i = [(m.col_idxs.getD (m.row_ptrs.getD i 0) 0,
      m.values.getD (m.row_ptrs.getD i 0) 0)] := by
  have hi : i < m.num_rows := m.row_lt_num_rows hm (by omega)
  have hlen1 : (m.row i).length = 1 := by rw [m.row_length hm i, h1]
  have hle : m.row_ptrs.getD (i + 1) 0 ≤ m.col_idxs.length := by
    obtain ⟨hlen, hlast, hvlen, hmono, -⟩ := hm
    rw [← hlast]
    exact hmono m.num_rows (by omega) (i + 1) (by omega)
  have hb : m.row_ptrs.getD i 0 < m.col_idxs.length := by omega
  have hbv : m.row_ptrs.getD i 0 < m.values.length := by
    obtain ⟨-, -, hvlen, -, -⟩ := hm
    omega
  have hzb : m.row_ptrs.getD i 0 < (m.col_idxs.zip m.values).length := by
    rw [List.length_zip]
    obtain ⟨-, -, hvlen, -, -⟩ := hm
    omega
  obtain ⟨p, hp⟩ := List.length_eq_one.mp hlen1
  have hhp : (m.row i).head? = some p := by rw [hp]; rfl
  have e1 : (m.row i).head? = (m.col_idxs.zip m.values)[m.row_ptrs.getD i 0]? := by
    unfold Csr.row
    rw [List.head?_take, if_neg (by omega :
      ¬(m.row_ptrs.getD (i + 1) 0 - m.row_ptrs.getD i 0 = 0)), List.head?_drop]
  have e2 : (m.col_idxs.zip m.values)[m.row_ptrs.getD i 0]? =
      some ((m.col_idxs.zip m.values).get ⟨m.row_ptrs.getD i 0, hzb⟩) :=
    List.getElem?_eq_getElem hzb
  rw [e1, e2] at hhp
  have e3 : (m.col_idxs.zip m.values).get ⟨m.row_ptrs.getD i 0, hzb⟩ =
      (m.col_idxs.get ⟨m.row_ptrs.getD i 0, hb⟩,
       m.values.get ⟨m.row_ptrs.getD i 0, hbv⟩) :=
    List.getElem_zip
  rw [e3] at hhp
  have hpval : p = (m.col_idxs.getD (m.row_ptrs.getD i 0) 0,
      m.values.getD (m.row_ptrs.getD i 0) 0) := by
    have := Option.some.inj hhp
    rw [← this, List.getD_eq_getElem _ _ hb, List.getD_eq_getElem _ _ hbv]
    rfl
  rw [hp, hpval]

theorem streamsOf_wf {V : Type} (A B : Csr V) (hA : A.Wf) (hB : B.Wf)
    (hdim : A.num_cols = B.num_rows) {i : Nat} (hi : i < A.num_rows) :
    StreamsWf (streamsOf A B i) := by
  intro s hs
  obtain ⟨e, he, rfl⟩ := List.mem_map.mp hs
  show ((B.row e.1).map Prod.fst).Pairwise (· < ·)
  have hcol : e.1 < A.num_cols := by
    obtain ⟨-, -, -, -, hrows⟩ := hA
    exact (hrows i hi).2 e.1 (List.mem_map_of_mem _ he)
  obtain ⟨-, -, -, -, hrowsB⟩ := hB
  exact (hrowsB e.1 (by omega)).1

theorem contrib_streamsOf {V : Type} [NonUnitalNonAssocSemiring V]
    (A B : Csr V) (i j : Nat) :
    contrib (streamsOf A B i) j =
      ((A.row i).map (fun e => e.2 * rowValueAt j (B.row e.1))).sum := by
  unfold contrib streamsOf
  rw [List.map_map]
  rfl

theorem streamCols_streamsOf {V : Type} (A B : Csr V) (i c : Nat) :
    c ∈ streamCols (streamsOf A B i) ↔
      ∃ e ∈ A.row i, c ∈ (B.row e.1).map Prod.fst := by
  rw [mem_streamCols]
  constructor
  · rintro ⟨s, hs, hcs⟩
    obtain ⟨e, he, rfl⟩ := List.mem_map.mp hs
    exact ⟨e, he, hcs⟩
  · rintro ⟨e, he, hce⟩
    exact ⟨⟨e.2, B.row e.1⟩, List.mem_map_of_mem _ he, hce⟩

theorem sum_mul_rowValueAt {V : Type} [NonUnitalNonAssocSemiring V] :
    ∀ (r : List (Nat × V)) (f : Nat → V) (K : Nat), (∀ e ∈ r, e.1 < K) →
      (r.map (fun e => e.2 * f e.1)).sum =
        ∑ k ∈ Finset.range K, rowValueAt k r * f k := by
  intro r
  induction r with
  | nil =>
    intro f K _
    simp [rowValueAt_nil]
  | cons e t ih =>
    intro f K hb
    rcases e with ⟨c, v⟩
    have hbt : ∀ e ∈ t, e.1 < K := fun e he => hb e (List.mem_cons_of_mem _ he)
    have hc : c < K := hb (c, v) (List.mem_cons_self _ _)
    rw [List.map_cons, List.sum_cons, ih f K hbt]
    have hsplit : ∀ k ∈ Finset.range K, rowValueAt k ((c, v) :: t) * f k
        = (if c = k then v * f k else 0) + rowValueAt k t * f k := by
      intro k _
      rw [rowValueAt_cons, add_mul, ite_mul, zero_mul]
    rw [Finset.sum_congr rfl hsplit, Finset.sum_add_distrib,
      Finset.sum_ite_eq (Finset.range K) c (fun k => v * f k),
      if_pos (Finset.mem_range.mpr hc)]

theorem rowValueAt_scale {V : Type} [NonUnitalNonAssocSemiring V] (a : V)
    (j : Nat) (r : List (Nat × V)) :
    rowValueAt j (r.map (fun e => (e.1, a * e.2))) = a * rowValueAt j r := by
  induction r with
  | nil => simp [rowValueAt_nil]
  | cons e t ih =>
    rcases e with ⟨c, v⟩
    rw [List.map_cons, rowValueAt_cons, rowValueAt_cons, ih, mul_add, mul_ite,
      mul_zero]

theorem map_fst_scale {V : Type} [Mul V] (a : V) (r : List (Nat × V)) :
    (r.map (fun e => (e.1, a * e.2))).map Prod.fst = r.map Prod.fst := by
  rw [List.map_map]
  rfl

theorem Csr.row_eq_nil_of_diff_zero {V : Type} (m : Csr V) {i : Nat}
    (h : m.row_ptrs.getD (i + 1) 0 - m.row_ptrs.getD i 0 = 0) :
    m.row i = [] := by
  unfold Csr.row
  rw [h, List.take_zero]

theorem spgemm_kernel_rowValueAt {V : Type} [NonUnitalNonAssocSemiring V]
    (S ws : Nat) (A B : Csr V) (hA : A.Wf) (hB : B.Wf)
    (hdim : A.num_cols = B.num_rows) {i : Nat} (hi : i < A.num_rows) (j : Nat) :
    rowValueAt j (spgemm_kernel_row S ws A B i) =
      ((A.row i).map (fun e => e.2 * rowValueAt j (B.row e.1))).sum := by
  by_cases h0 : A.row_ptrs.getD (i + 1) 0 - A.row_ptrs.getD i 0 = 0
  · unfold spgemm_kernel_row
    rw [if_pos h0, Csr.row_eq_nil_of_diff_zero A h0]
    rfl
  · by_cases h1 : A.row_ptrs.getD (i + 1) 0 - A.row_ptrs.getD i 0 = 1
    · unfold spgemm_kernel_row
      rw [if_neg h0, if_pos h1, A.row_singleton hA i h1, rowValueAt_scale]
      simp
    · unfold spgemm_kernel_row
      rw [if_neg h0, if_neg h1,
        mergeDispatch_rowValueAt (streamsOf_wf A B hA hB hdim hi) S ws _ j,
        contrib_streamsOf]

theorem spgemm_kernel_row_cols {V : Type} [NonUnitalNonAssocSemiring V]
    (S ws : Nat) (A B : Csr V) (hA : A.Wf) {i : Nat} {j : Nat} (hjS : j ≠ S) :
    j ∈ (spgemm_kernel_row S ws A B i).map Prod.fst ↔
      ∃ e ∈ A.row i, j ∈ (B.row e.1).map Prod.fst := by
  by_cases h0 : A.row_ptrs.getD (i + 1) 0 - A.row_ptrs.getD i 0 = 0
  · unfold spgemm_kernel_row
    rw [if_pos h0, Csr.row_eq_nil_of_diff_zero A h0]
    simp
  · by_cases h1 : A.row_ptrs.getD (i + 1) 0 - A.row_ptrs.getD i 0 = 1
    · unfold spgemm_kernel_row
      rw [if_neg h0, if_pos h1, A.row_singleton hA i h1, map_fst_scale]
      constructor
      · intro h
        exact ⟨_, List.mem_singleton_self _, h⟩
      · rintro ⟨e, he, hce⟩
        rw [List.mem_singleton] at he
        rw [he] at hce
        exact hce
    · unfold spgemm_kernel_row
      rw [if_neg h0, if_neg h1, mergeDispatch_cols _ hjS, streamCols_streamsOf]

/-! ## Claim theorems -/

/-- C1: For every CSR A and B, the SpGEMM counting pass and the value pass
traverse each row in identical order: for every row `i`, the per-row
non-zero count produced by `spgemm_count` equals the number of
`(column, value)` pairs written for row `i` by `spgemm_kernel`, so the
row-pointer array obtained by prefix-scanning the counts equals the prefix
sum of the output row lengths of the value pass. -/
theorem spgemm_two_pass_coherence {V : Type} [NonUnitalNonAssocSemiring V]
    (S ws : Nat) (A B : Csr V) (hB : B.Wf) :
    (∀ i, spgemm_count_row S ws A B i = (spgemm_kernel_row S ws A B i).length) ∧
    prefixSum (spgemmCounts S ws A B) = prefixSum (spgemmOutLens S ws A B) := by
  have hpt : ∀ i, spgemm_count_row S ws A B i =
      (spgemm_kernel_row S ws A B i).length := by
    intro i
    unfold spgemm_count_row spgemm_kernel_row
    by_cases h0 : A.row_ptrs.getD (i + 1) 0 - A.row_ptrs.getD i 0 = 0
    · rw [if_pos h0, if_pos h0]
      rfl
    · by_cases h1 : A.row_ptrs.getD (i + 1) 0 - A.row_ptrs.getD i 0 = 1
      · rw [if_neg h0, if_pos h1, if_neg h0, if_pos h1, List.length_map,
          Csr.row_length B hB]
      · rw [if_neg h0, if_neg h1, if_neg h0, if_neg h1]
        exact mergeDispatch_length_eraseVals S ws _ (streamsOf A B i)
  refine ⟨hpt, ?_⟩
  apply congrArg prefixSum
  exact List.map_congr_left (fun i _ => hpt i)

/-- C1 witness: the two-pass coherence at the concrete tier-1 matrices of
spec scenario 3 (A = [[1,2],[0,3]], B = [[4,0],[0,5]]). -/
theorem spgemm_two_pass_coherence_witness :
    (Csr.mk 2 2 [0, 1, 2] [0, 1] [(4 : Int), 5]).Wf ∧
    ((∀ i, spgemm_count_row 2147483647 32
        (Csr.mk 2 2 [0, 2, 3] [0, 1, 1] [(1 : Int), 2, 3])
        (Csr.mk 2 2 [0, 1, 2] [0, 1] [(4 : Int), 5]) i =
      (spgemm_kernel_row 2147483647 32
        (Csr.mk 2 2 [0, 2, 3] [0, 1, 1] [(1 : Int), 2, 3])
        (Csr.mk 2 2 [0, 1, 2] [0, 1] [(4 : Int), 5]) i).length) ∧
    prefixSum (spgemmCounts 2147483647 32
        (Csr.mk 2 2 [0, 2, 3] [0, 1, 1] [(1 : Int), 2, 3])
        (Csr.mk 2 2 [0, 1, 2] [0, 1] [(4 : Int), 5])) =
      prefixSum (spgemmOutLens 2147483647 32
        (Csr.mk 2 2 [0, 2, 3] [0, 1, 1] [(1 : Int), 2, 3])
        (Csr.mk 2 2 [0, 1, 2] [0, 1] [(4 : Int), 5]))) :=
  ⟨by decide, spgemm_two_pass_coherence 2147483647 32 _ _ (by decide)⟩

/-- C2 counterexample: over exact integer arithmetic, with
A = [[1, 1]] (1×2) and B = [[1], [-1]] (2×1), the SpGEMM kernel stores
column 0 of row 0 (with value 0, by cancellation), while the dense product
entry (0,0) is `1·1 + 1·(-1) = 0`; so the stored pattern is not the set of
columns with a non-zero product `∑ₖ A_{ik}·B_{kj}`. -/
theorem spgemm_pattern_counterexample :
    ¬ (∀ j : Nat,
        j ∈ (spgemm_kernel_row 2147483647 32
          (Csr.mk 1 2 [0, 2] [0, 1] [(1 : Int), 1])
          (Csr.mk 2 1 [0, 1, 2] [0, 0] [(1 : Int), -1]) 0).map Prod.fst ↔
        (∑ k ∈ Finset.range 2,
          csrDense (Csr.mk 1 2 [0, 2] [0, 1] [(1 : Int), 1]) 0 k *
            csrDense (Csr.mk 2 1 [0, 1, 2] [0, 0] [(1 : Int), -1]) k j) ≠ 0) := by
  intro h
  have hmem : (0 : Nat) ∈ (spgemm_kernel_row 2147483647 32
      (Csr.mk 1 2 [0, 2] [0, 1] [(1 : Int), 1])
      (Csr.mk 2 1 [0, 1, 2] [0, 0] [(1 : Int), -1]) 0).map Prod.fst := by
    decide
  exact (h 0).mp hmem (by decide)

/-- C2 (amended): for well-formed CSR A (m×k) and B (k×n) with `n` at most
the sentinel index value, converting the SpGEMM result to dense equals the
dense product `Dense(A)·Dense(B)` elementwise, exactly, over exact
arithmetic; and the set of stored column positions in row `i` (within the
column bounds) equals the union of the stored column sets of the merged B
rows — the set of columns `j` for which some stored entry `(i,k)` of A meets
a stored entry `(k,j)` of B, stored zero values and cancellations
included. -/
theorem spgemm_dense_product_and_pattern {V : Type}
    [NonUnitalNonAssocSemiring V] (S ws : Nat) (A B : Csr V) (hA : A.Wf)
    (hB : B.Wf) (hdim : A.num_cols = B.num_rows) (hS : B.num_cols ≤ S)
    {i j : Nat} (hi : i < A.num_rows) (hj : j < B.num_cols) :
    rowValueAt j (spgemm_kernel_row S ws A B i) =
      ∑ k ∈ Finset.range B.num_rows, csrDense A i k * csrDense B k j ∧
    (j ∈ (spgemm_kernel_row S ws A B i).map Prod.fst ↔
      ∃ e ∈ A.row i, j ∈ (B.row e.1).map Prod.fst) := by
  constructor
  · rw [spgemm_kernel_rowValueAt S ws A B hA hB hdim hi j]
    unfold csrDense
    apply sum_mul_rowValueAt (A.row i) (fun k => rowValueAt j (B.row k))
    intro e he
    have := (hA.2.2.2.2 i hi).2 e.1 (List.mem_map_of_mem _ he)
    omega
  · exact spgemm_kernel_row_cols S ws A B hA (by omega : j ≠ S)

/-- C2 witness: the amended statement at the concrete matrices of spec
scenario 3, row 0, column 0. -/
theorem spgemm_dense_product_and_pattern_witness :
    ((Csr.mk 2 2 [0, 2, 3] [0, 1, 1] [(1 : Int), 2, 3]).Wf ∧
     (Csr.mk 2 2 [0, 1, 2] [0, 1] [(4 : Int), 5]).Wf ∧
     (0 : Nat) < 2 ∧ (2 : Nat) ≤ 2147483647) ∧
    (rowValueAt 0 (spgemm_kernel_row 2147483647 32
        (Csr.mk 2 2 [0, 2, 3] [0, 1, 1] [(1 : Int), 2, 3])
        (Csr.mk 2 2 [0, 1, 2] [0, 1] [(4 : Int), 5]) 0) =
      ∑ k ∈ Finset.range 2,
        csrDense (Csr.mk 2 2 [0, 2, 3] [0, 1, 1] [(1 : Int), 2, 3]) 0 k *
          csrDense (Csr.mk 2 2 [0, 1, 2] [0, 1] [(4 : Int), 5]) k 0 ∧
    ((0 : Nat) ∈ (spgemm_kernel_row 2147483647 32
        (Csr.mk 2 2 [0, 2, 3] [0, 1, 1] [(1 : Int), 2, 3])
        (Csr.mk 2 2 [0, 1, 2] [0, 1] [(4 : Int), 5]) 0).map Prod.fst ↔
      ∃ e ∈ (Csr.mk 2 2 [0, 2, 3] [0, 1, 1] [(1 : Int), 2, 3]).row 0,
        (0 : Nat) ∈ ((Csr.mk 2 2 [0, 1, 2] [0, 1] [(4 : Int), 5]).row e.1).map
          Prod.fst)) :=
  ⟨⟨by decide, by decide, by decide, by decide⟩,
    spgemm_dense_product_and_pattern 2147483647 32 _ _ (by decide) (by decide)
      (by decide) (by decide) (by decide) (by decide)⟩

/-- C5: the SpGEMM merge dispatch selects the tier exactly by A's row
length (for rows of length at least 2): a short (shift-register) variant
iff `a_size ≤ warp_size`, the medium (in-register heap plus shared memory)
variant iff `warp_size < a_size ≤ warp_size·(child_count+1)` with
`child_count = 2`, and the large (global-memory heap) variant otherwise. -/
theorem spgemm_dispatch_tier_selection (ws a : Nat) (hws : 32 ≤ ws)
    (ha : 2 ≤ a) :
    ((spgemmDispatchTier ws a).isShort = true ↔ a ≤ ws) ∧
    (spgemmDispatchTier ws a = SpgemmTier.medium ↔
      ws < a ∧ a ≤ ws * (spgemm_child_count + 1)) ∧
    (spgemmDispatchTier ws a = SpgemmTier.large ↔
      ws * (spgemm_child_count + 1) < a) := by
  unfold spgemmDispatchTier spgemm_child_count
  split_ifs with h1 h2 h3 h4 h5 h6 h7 <;>
    refine ⟨?_, ?_, ?_⟩ <;> simp [SpgemmTier.isShort] <;> omega

/-- C5 witness: the tier characterization at `warp_size = 32`,
`a_size = 40` (which selects the medium tier). -/
theorem spgemm_dispatch_tier_selection_witness :
    ((32 : Nat) ≤ 32 ∧ (2 : Nat) ≤ 40) ∧
    (((spgemmDispatchTier 32 40).isShort = true ↔ (40 : Nat) ≤ 32) ∧
     (spgemmDispatchTier 32 40 = SpgemmTier.medium ↔
       (32 : Nat) < 40 ∧ (40 : Nat) ≤ 32 * (spgemm_child_count + 1)) ∧
     (spgemmDispatchTier 32 40 = SpgemmTier.large ↔
       32 * (spgemm_child_count + 1) < (40 : Nat))) :=
  ⟨⟨by decide, by decide⟩,
    spgemm_dispatch_tier_selection 32 40 (by decide) (by decide)⟩

/-- C10: for every row `i` of A holding exactly one stored entry `(k, a)`,
the counting pass reports the stored length of row `k` of B, and the value
pass writes row `i` of C as an exact copy of row `k` of B with every value
multiplied by `a` — stored entries of B with zero value (or zero product)
are copied too, nothing is filtered. -/
theorem spgemm_singleton_row_copy {V : Type} [NonUnitalNonAssocSemiring V]
    (S ws : Nat) (A B : Csr V) (hA : A.Wf) (hB : B.Wf) (i : Nat)
    (h1 : A.row_ptrs.getD (i + 1) 0 - A.row_ptrs.getD i 0 = 1) :
    A.row i = [(A.col_idxs.getD (A.row_ptrs.getD i 0) 0,
      A.values.getD (A.row_ptrs.getD i 0) 0)] ∧
    spgemm_count_row S ws A B i =
      (B.row (A.col_idxs.getD (A.row_ptrs.getD i 0) 0)).length ∧
    spgemm_kernel_row S ws A B i =
      (B.row (A.col_idxs.getD (A.row_ptrs.getD i 0) 0)).map
        (fun e => (e.1, A.values.getD (A.row_ptrs.getD i 0) 0 * e.2)) ∧
    (spgemm_kernel_row S ws A B i).length =
      (B.row (A.col_idxs.getD (A.row_ptrs.getD i 0) 0)).length := by
  have hne0 : ¬ (A.row_ptrs.getD (i + 1) 0 - A.row_ptrs.getD i 0 = 0) := by
    omega
  have hker : spgemm_kernel_row S ws A B i =
      (B.row (A.col_idxs.getD (A.row_ptrs.getD i 0) 0)).map
        (fun e => (e.1, A.values.getD (A.row_ptrs.getD i 0) 0 * e.2)) := by
    unfold spgemm_kernel_row
    rw [if_neg hne0, if_pos h1]
  refine ⟨A.row_singleton hA i h1, ?_, hker, ?_⟩
  · unfold spgemm_count_row
    rw [if_neg hne0, if_pos h1, Csr.row_length B hB]
  · rw [hker, List.length_map]

/-- C10 witness: the singleton-row copy at A = [[0,2],[0,0]] (row 0 holds
the single entry (1, 2)) and B = [[4,0],[0,5]]; row 0 of B·scaled is copied
whole. -/
theorem spgemm_singleton_row_copy_witness :
    ((Csr.mk 2 2 [0, 1, 1] [1] [(2 : Int)]).Wf ∧
     (Csr.mk 2 2 [0, 1, 2] [0, 1] [(4 : Int), 5]).Wf ∧
     (Csr.mk 2 2 [0, 1, 1] [1] [(2 : Int)]).row_ptrs.getD 1 0 -
       (Csr.mk 2 2 [0, 1, 1] [1] [(2 : Int)]).row_ptrs.getD 0 0 = 1) ∧
    ((Csr.mk 2 2 [0, 1, 1] [1] [(2 : Int)]).row 0 =
      [((Csr.mk 2 2 [0, 1, 1] [1] [(2 : Int)]).col_idxs.getD
          ((Csr.mk 2 2 [0, 1, 1] [1] [(2 : Int)]).row_ptrs.getD 0 0) 0,
        (Csr.mk 2 2 [0, 1, 1] [1] [(2 : Int)]).values.getD
          ((Csr.mk 2 2 [0, 1, 1] [1] [(2 : Int)]).row_ptrs.getD 0 0) 0)] ∧
     spgemm_count_row 2147483647 32 (Csr.mk 2 2 [0, 1, 1] [1] [(2 : Int)])
        (Csr.mk 2 2 [0, 1, 2] [0, 1] [(4 : Int), 5]) 0 =
      ((Csr.mk 2 2 [0, 1, 2] [0, 1] [(4 : Int), 5]).row
        ((Csr.mk 2 2 [0, 1, 1] [1] [(2 : Int)]).col_idxs.getD
          ((Csr.mk 2 2 [0, 1, 1] [1] [(2 : Int)]).row_ptrs.getD 0 0) 0)).length ∧
     spgemm_kernel_row 2147483647 32 (Csr.mk 2 2 [0, 1, 1] [1] [(2 : Int)])
        (Csr.mk 2 2 [0, 1, 2] [0, 1] [(4 : Int), 5]) 0 =
      ((Csr.mk 2 2 [0, 1, 2] [0, 1] [(4 : Int), 5]).row
        ((Csr.mk 2 2 [0, 1, 1] [1] [(2 : Int)]).col_idxs.getD
          ((Csr.mk 2 2 [0, 1, 1] [1] [(2 : Int)]).row_ptrs.getD 0 0) 0)).map
        (fun e => (e.1, (Csr.mk 2 2 [0, 1, 1] [1] [(2 : Int)]).values.getD
          ((Csr.mk 2 2 [0, 1, 1] [1] [(2 : Int)]).row_ptrs.getD 0 0) 0 * e.2)) ∧
     (spgemm_kernel_row 2147483647 32 (Csr.mk 2 2 [0, 1, 1] [1] [(2 : Int)])
        (Csr.mk 2 2 [0, 1, 2] [0, 1] [(4 : Int), 5]) 0).length =
      ((Csr.mk 2 2 [0, 1, 2] [0, 1] [(4 : Int), 5]).row
        ((Csr.mk 2 2 [0, 1, 1] [1] [(2 : Int)]).col_idxs.getD
          ((Csr.mk 2 2 [0, 1, 1] [1] [(2 : Int)]).row_ptrs.getD 0 0) 0)).length) :=
  ⟨⟨by decide, by decide, by decide⟩,
    spgemm_singleton_row_copy 2147483647 32 _ _ (by decide) (by decide) 0
      (by decide)⟩

/-! ## Supporting lemmas: ELL SpMV -/

theorem mod_eq_imp_ge_add {i idx step : Nat} (_ : 1 ≤ step)
    (hlt : idx < i) (hmod : i % step = idx % step) : idx + step ≤ i := by
  have hz : (i - idx) % step = 0 := Nat.sub_mod_eq_zero_of_mod_eq hmod
  have hdvd : step ∣ (i - idx) := Nat.dvd_of_mod_eq_zero hz
  have hle := Nat.le_of_dvd (by omega) hdvd
  omega

namespace EllArgs

theorem col_ge {V : Type} [Zero V] {e : EllArgs V} {len : Nat → Nat}
    (hv : e.Valid len) {r : Nat} (hr : r < e.num_rows) :
    ∀ i, i < len r → i ≤ e.col (r + i * e.stride) := by
  intro i
  induction i with
  | zero => intro _; exact Nat.zero_le _
  | succ i ih =>
    intro hi
    have hstrict := ((hv r hr).2.1 i (by omega)).1 (by omega)
    have := ih (by omega)
    omega

theorem loop_pad_zero {V : Type} [NonUnitalNonAssocSemiring V]
    {e : EllArgs V} {len : Nat → Nat} (hv : e.Valid len) {r : Nat}
    (hr : r < e.num_rows) (colid : Nat) :
    ∀ (fuel idx step : Nat), len r ≤ idx →
      e.loop r colid fuel idx step = 0 := by
  intro fuel
  induction fuel with
  | zero => intro idx step _; rfl
  | succ fuel ih =>
    intro idx step h
    show (if idx < e.num_stored_elements_per_row then
      if e.col (r + idx * e.stride) < idx then 0
      else e.term r colid idx + e.loop r colid fuel (idx + step) step
      else 0) = 0
    by_cases hidx : idx < e.num_stored_elements_per_row
    · rw [if_pos hidx]
      by_cases hbad : e.col (r + idx * e.stride) < idx
      · rw [if_pos hbad]
      · rw [if_neg hbad]
        have hpad := (hv r hr).2.2 idx hidx h
        have hterm : e.term r colid idx = 0 := by
          unfold term
          rw [hpad.2, zero_mul]
        rw [hterm, ih (idx + step) step (by omega), add_zero]
    · rw [if_neg hidx]

theorem len_le_stored {V : Type} [Zero V] {e : EllArgs V} {len : Nat → Nat}
    (hv : e.Valid len) {r : Nat} (hr : r < e.num_rows) :
    len r ≤ e.num_stored_elements_per_row := (hv r hr).1

theorem loop_strided {V : Type} [NonUnitalNonAssocSemiring V]
    {e : EllArgs V} {len : Nat → Nat} (hv : e.Valid len) {r : Nat}
    (hr : r < e.num_rows) (colid : Nat) :
    ∀ (fuel idx step : Nat), 1 ≤ step →
      e.num_stored_elements_per_row ≤ fuel + idx →
      e.loop r colid fuel idx step =
        ∑ i ∈ (Finset.range (len r)).filter
          (fun i => idx ≤ i ∧ i % step = idx % step), e.term r colid i := by
  intro fuel
  induction fuel with
  | zero =>
    intro idx step _ hfuel
    have hempty : (Finset.range (len r)).filter
        (fun i => idx ≤ i ∧ i % step = idx % step) = ∅ := by
      apply Finset.filter_eq_empty_iff.mpr
      intro i hi
      have := Finset.mem_range.mp hi
      have := len_le_stored hv hr
      omega
    rw [hempty, Finset.sum_empty]
    rfl
  | succ fuel ih =>
    intro idx step hstep hfuel
    show (if idx < e.num_stored_elements_per_row then
      if e.col (r + idx * e.stride) < idx then 0
      else e.term r colid idx + e.loop r colid fuel (idx + step) step
      else 0) = _
    by_cases hidx : idx < e.num_stored_elements_per_row
    · rw [if_pos hidx]
      by_cases hbad : e.col (r + idx * e.stride) < idx
      · rw [if_pos hbad]
        have hge : len r ≤ idx := by
          by_contra hcon
          push_neg at hcon
          exact absurd hbad (by have := col_ge hv hr idx hcon; omega)
        have hempty : (Finset.range (len r)).filter
            (fun i => idx ≤ i ∧ i % step = idx % step) = ∅ := by
          apply Finset.filter_eq_empty_iff.mpr
          intro i hi
          have := Finset.mem_range.mp hi
          omega
        rw [hempty, Finset.sum_empty]
      · rw [if_neg hbad]
        rw [ih (idx + step) step hstep (by omega)]
        by_cases hil : idx < len r
        · have hset : (Finset.range (len r)).filter
              (fun i => idx ≤ i ∧ i % step = idx % step) =
              insert idx ((Finset.range (len r)).filter
                (fun i => idx + step ≤ i ∧ i % step = (idx + step) % step)) := by
            ext i
            simp only [Finset.mem_filter, Finset.mem_range, Finset.mem_insert]
            constructor
            · rintro ⟨hiR, hile, himod⟩
              by_cases hieq : i = idx
              · exact Or.inl hieq
              · refine Or.inr ⟨hiR, ?_, ?_⟩
                · exact mod_eq_imp_ge_add hstep (by omega) himod
                · rw [Nat.add_mod_right]
                  exact himod
            · rintro (rfl | ⟨hiR, hile, himod⟩)
              · exact ⟨hil, le_refl _, rfl⟩
              · rw [Nat.add_mod_right] at himod
                exact ⟨hiR, by omega, himod⟩
          have hnotmem : idx ∉ (Finset.range (len r)).filter
              (fun i => idx + step ≤ i ∧ i % step = (idx + step) % step) := by
            simp only [Finset.mem_filter, Finset.mem_range]
            rintro ⟨-, hle, -⟩
            omega
          rw [hset, Finset.sum_insert hnotmem]
        · have hpad := (hv r hr).2.2 idx hidx (by omega)
          have hterm : e.term r colid idx = 0 := by
            unfold term
            rw [hpad.2, zero_mul]
          have hempty1 : (Finset.range (len r)).filter
              (fun i => idx ≤ i ∧ i % step = idx % step) = ∅ := by
            apply Finset.filter_eq_empty_iff.mpr
            intro i hi
            have := Finset.mem_range.mp hi
            omega
          have hempty2 : (Finset.range (len r)).filter
              (fun i => idx + step ≤ i ∧ i % step = (idx + step) % step) = ∅ := by
            apply Finset.filter_eq_empty_iff.mpr
            intro i hi
            have := Finset.mem_range.mp hi
            omega
          rw [hempty1, hempty2, Finset.sum_empty, hterm, add_zero]
    · rw [if_neg hidx]
      have hempty : (Finset.range (len r)).filter
          (fun i => idx ≤ i ∧ i % step = idx % step) = ∅ := by
        apply Finset.filter_eq_empty_iff.mpr
        intro i hi
        have := Finset.mem_range.mp hi
        have := len_le_stored hv hr
        omega
      rw [hempty, Finset.sum_empty]

theorem rowTemp_eq_sum {V : Type} [NonUnitalNonAssocSemiring V]
    {e : EllArgs V} {len : Nat → Nat} (hv : e.Valid len) {r : Nat}
    (hr : r < e.num_rows) (colid : Nat) :
    e.rowTemp r colid = ∑ i ∈ Finset.range (len r), e.term r colid i := by
  unfold rowTemp
  rw [loop_strided hv hr colid e.num_stored_elements_per_row 0 1 (by omega)
    (by omega)]
  congr 1
  apply Finset.filter_true_of_mem
  intro i _
  exact ⟨Nat.zero_le _, by omega⟩

end EllArgs

theorem sum_grid {V : Type} [AddCommMonoid V] :
    ∀ (n p : Nat) (g : Nat → V),
      (∑ w ∈ Finset.range n, ∑ t ∈ Finset.range p, g (w * p + t)) =
        ∑ s ∈ Finset.range (n * p), g s := by
  intro n
  induction n with
  | zero => intro p g; simp
  | succ n ih =>
    intro p g
    rw [Finset.sum_range_succ, ih p g, Nat.succ_mul, Finset.sum_range_add]

namespace EllArgs

theorem workerTotal_eq_sum {V : Type} [NonUnitalNonAssocSemiring V]
    {e : EllArgs V} {len : Nat → Nat} (hv : e.Valid len) {r : Nat}
    (hr : r < e.num_rows) (colid : Nat) (nwpr ntpw : Nat) (h1 : 1 ≤ nwpr)
    (h2 : 1 ≤ ntpw) :
    e.workerTotal nwpr ntpw r colid =
      ∑ i ∈ Finset.range (len r), e.term r colid i := by
  unfold workerTotal
  have hstep : 1 ≤ nwpr * ntpw := Nat.mul_le_mul h1 h2
  have hinner : ∀ w ∈ Finset.range nwpr, ∀ t ∈ Finset.range ntpw,
      e.loop r colid e.num_stored_elements_per_row (w * ntpw + t)
        (nwpr * ntpw) =
      ∑ i ∈ (Finset.range (len r)).filter
        (fun i => i % (nwpr * ntpw) = w * ntpw + t), e.term r colid i := by
    intro w hw t ht
    have hwlt := Finset.mem_range.mp hw
    have htlt := Finset.mem_range.mp ht
    have hstart : w * ntpw + t < nwpr * ntpw := by
      calc w * ntpw + t < w * ntpw + ntpw := by omega
        _ = (w + 1) * ntpw := by rw [Nat.succ_mul]
        _ ≤ nwpr * ntpw := Nat.mul_le_mul_right _ (by omega)
    rw [EllArgs.loop_strided hv hr colid _ _ _ hstep (by omega)]
    apply Finset.sum_congr
    · apply Finset.filter_congr
      intro i _
      rw [Nat.mod_eq_of_lt hstart]
      constructor
      · rintro ⟨-, hmod⟩; exact hmod
      · intro hmod
        refine ⟨?_, hmod⟩
        rw [← hmod]
        exact Nat.mod_le i _
    · intro i _; rfl
  rw [Finset.sum_congr rfl (fun w hw => Finset.sum_congr rfl (hinner w hw))]
  rw [sum_grid nwpr ntpw
    (fun s => ∑ i ∈ (Finset.range (len r)).filter
      (fun i => i % (nwpr * ntpw) = s), e.term r colid i)]
  exact Finset.sum_fiberwise_of_maps_to
    (fun i _ => Finset.mem_range.mpr (Nat.mod_lt i (by omega))) _

theorem matvec_eq_sum {V : Type} [NonUnitalNonAssocSemiring V]
    {e : EllArgs V} {len : Nat → Nat} (hv : e.Valid len) {r : Nat}
    (hr : r < e.num_rows) (colid : Nat) :
    e.matvec len r colid = ∑ i ∈ Finset.range (len r), e.term r colid i := by
  unfold matvec dense
  have hmul : ∀ c ∈ Finset.range e.num_cols,
      (∑ i ∈ Finset.range (len r),
        if e.col (r + i * e.stride) = c then e.val (r + i * e.stride) else 0) *
        e.b (c * e.b_stride + colid) =
      ∑ i ∈ Finset.range (len r),
        (if e.col (r + i * e.stride) = c then
          e.val (r + i * e.stride) * e.b (c * e.b_stride + colid) else 0) := by
    intro c _
    rw [Finset.sum_mul]
    apply Finset.sum_congr rfl
    intro i _
    rw [ite_mul, zero_mul]
  rw [Finset.sum_congr rfl hmul, Finset.sum_comm]
  apply Finset.sum_congr rfl
  intro i hi
  rw [Finset.sum_ite_eq (Finset.range e.num_cols) (e.col (r + i * e.stride))
    (fun c => e.val (r + i * e.stride) * e.b (c * e.b_stride + colid)),
    if_pos (Finset.mem_range.mpr
      ((hv r hr).2.1 i (Finset.mem_range.mp hi)).2)]
  rfl

theorem breakPos_go_ge {V : Type} (e : EllArgs V) (r : Nat) :
    ∀ (fuel idx : Nat), idx ≤ breakPos.go e r fuel idx := by
  intro fuel
  induction fuel with
  | zero => intro idx; exact le_refl _
  | succ fuel ih =>
    intro idx
    show idx ≤ (if idx < e.num_stored_elements_per_row then
      if e.col (r + idx * e.stride) < idx then idx
      else breakPos.go e r fuel (idx + 1) else idx)
    by_cases hidx : idx < e.num_stored_elements_per_row
    · rw [if_pos hidx]
      by_cases hbad : e.col (r + idx * e.stride) < idx
      · rw [if_pos hbad]
      · rw [if_neg hbad]
        have := ih (idx + 1)
        omega
    · rw [if_neg hidx]

theorem loop_eq_sum_to_break {V : Type} [NonUnitalNonAssocSemiring V]
    (e : EllArgs V) (r colid : Nat) :
    ∀ (fuel idx : Nat), e.num_stored_elements_per_row ≤ fuel + idx →
      e.loop r colid fuel idx 1 =
        ∑ i ∈ Finset.Ico idx (breakPos.go e r fuel idx), e.term r colid i := by
  intro fuel
  induction fuel with
  | zero =>
    intro idx _
    show (0 : V) = ∑ i ∈ Finset.Ico idx idx, e.term r colid i
    rw [Finset.Ico_self, Finset.sum_empty]
  | succ fuel ih =>
    intro idx hfuel
    show (if idx < e.num_stored_elements_per_row then
      if e.col (r + idx * e.stride) < idx then 0
      else e.term r colid idx + e.loop r colid fuel (idx + 1) 1
      else 0) =
      ∑ i ∈ Finset.Ico idx (if idx < e.num_stored_elements_per_row then
        if e.col (r + idx * e.stride) < idx then idx
        else breakPos.go e r fuel (idx + 1) else idx), e.term r colid i
    by_cases hidx : idx < e.num_stored_elements_per_row
    · rw [if_pos hidx, if_pos hidx]
      by_cases hbad : e.col (r + idx * e.stride) < idx
      · rw [if_pos hbad, if_pos hbad, Finset.Ico_self, Finset.sum_empty]
      · rw [if_neg hbad, if_neg hbad]
        have hgt : idx < breakPos.go e r fuel (idx + 1) := by
          have := breakPos_go_ge e r fuel (idx + 1)
          omega
        rw [Finset.sum_eq_sum_Ico_succ_bot hgt, ih (idx + 1) (by omega)]
    · rw [if_neg hidx, if_neg hidx, Finset.Ico_self, Finset.sum_empty]

theorem breakPos_go_spec {V : Type} (e : EllArgs V) (r : Nat) :
    ∀ (fuel idx : Nat), e.num_stored_elements_per_row ≤ fuel + idx →
      (∀ i, idx ≤ i → i < breakPos.go e r fuel idx →
        ¬ (e.col (r + i * e.stride) < i)) ∧
      (breakPos.go e r fuel idx < e.num_stored_elements_per_row →
        e.col (r + breakPos.go e r fuel idx * e.stride) <
          breakPos.go e r fuel idx) ∧
      (idx ≤ e.num_stored_elements_per_row →
        breakPos.go e r fuel idx ≤ e.num_stored_elements_per_row) := by
  intro fuel
  induction fuel with
  | zero =>
    intro idx hfuel
    have h0 : breakPos.go e r 0 idx = idx := rfl
    refine ⟨fun i h1 h2 => by omega, fun h => by omega, fun h => by omega⟩
  | succ fuel ih =>
    intro idx hfuel
    have hshow : breakPos.go e r (fuel + 1) idx =
        (if idx < e.num_stored_elements_per_row then
          if e.col (r + idx * e.stride) < idx then idx
          else breakPos.go e r fuel (idx + 1) else idx) := rfl
    by_cases hidx : idx < e.num_stored_elements_per_row
    · by_cases hbad : e.col (r + idx * e.stride) < idx
      · rw [hshow, if_pos hidx, if_pos hbad]
        exact ⟨fun i h1 h2 => by omega, fun _ => hbad, fun _ => by omega⟩
      · rw [hshow, if_pos hidx, if_neg hbad]
        obtain ⟨s1, s2, s3⟩ := ih (idx + 1) (by omega)
        refine ⟨?_, s2, fun _ => s3 (by omega)⟩
        intro i h1 h2
        by_cases hieq : i = idx
        · rw [hieq]; exact hbad
        · exact s1 i (by omega) h2
    · rw [hshow, if_neg hidx]
      exact ⟨fun i h1 h2 => by omega, fun h => absurd h hidx, fun h => h⟩

end EllArgs

/-- C3: `apply(alpha, b, beta, c)` computes `c ← α·A·b + β·c` for the ELL
SpMV kernels: the non-atomic alpha/beta kernel directly, and the
multi-worker atomic variant after the (spec-modelled) host-side scaling of
`c` by `beta`, for every row and right-hand-side column. -/
theorem ell_apply_alpha_beta {V : Type} [NonUnitalNonAssocSemiring V]
    (e : EllArgs V) (len : Nat → Nat) (hv : e.Valid len) {r : Nat}
    (hr : r < e.num_rows) (colid : Nat) (alpha beta : V)
    (c_old : Nat → Nat → V) (nwpr ntpw : Nat) (h1 : 1 ≤ nwpr)
    (h2 : 1 ≤ ntpw) :
    e.spmv_advanced alpha beta c_old r colid =
      alpha * e.matvec len r colid + beta * c_old r colid ∧
    e.apply_atomic alpha beta nwpr ntpw c_old r colid =
      alpha * e.matvec len r colid + beta * c_old r colid := by
  have hm := EllArgs.matvec_eq_sum hv hr colid
  constructor
  · unfold EllArgs.spmv_advanced
    rw [EllArgs.rowTemp_eq_sum hv hr, hm]
  · unfold EllArgs.apply_atomic EllArgs.spmv_atomic_kernel
    rw [EllArgs.workerTotal_eq_sum hv hr colid nwpr ntpw h1 h2, hm]
    exact add_comm _ _

/-- C4: the ELL SpMV kernel treats an entry at in-row position `idx` with
stored column index `col_idx < idx` as end-of-row: the output is the sum of
the contributions strictly before the first such position (`breakPos`), no
entry at or after it contributes; and for every valid ELL matrix the result
still equals `A·b`. -/
theorem ell_padding_sentinel {V : Type} [NonUnitalNonAssocSemiring V]
    (e : EllArgs V) (len : Nat → Nat) (hv : e.Valid len) {r : Nat}
    (hr : r < e.num_rows) (colid : Nat) :
    e.spmv_simple r colid =
      ∑ i ∈ Finset.range (e.breakPos r), e.term r colid i ∧
    (∀ i, i < e.breakPos r → ¬ (e.col (r + i * e.stride) < i)) ∧
    (e.breakPos r < e.num_stored_elements_per_row →
      e.col (r + e.breakPos r * e.stride) < e.breakPos r) ∧
    e.spmv_simple r colid = e.matvec len r colid := by
  obtain ⟨s1, s2, -⟩ := EllArgs.breakPos_go_spec e r
    e.num_stored_elements_per_row 0 (by omega)
  refine ⟨?_, fun i hi => s1 i (Nat.zero_le _) hi, s2, ?_⟩
  · show e.rowTemp r colid = _
    unfold EllArgs.rowTemp
    rw [EllArgs.loop_eq_sum_to_break e r colid e.num_stored_elements_per_row 0
      (by omega), Finset.range_eq_Ico]
    rfl
  · show e.rowTemp r colid = _
    rw [EllArgs.rowTemp_eq_sum hv hr, EllArgs.matvec_eq_sum hv hr]

/-- C3 witness: the alpha/beta contract at `ellFixture` with `α = 2`,
`β = 3`, two workers of one thread each, row 0, column 0. -/
theorem ell_apply_alpha_beta_witness :
    (ellFixture.Valid ellFixtureLen ∧ (0 : Nat) < ellFixture.num_rows ∧
     (1 : Nat) ≤ 2 ∧ (1 : Nat) ≤ 1) ∧
    (ellFixture.spmv_advanced 2 3 ellFixtureCold 0 0 =
        2 * ellFixture.matvec ellFixtureLen 0 0 + 3 * ellFixtureCold 0 0 ∧
     ellFixture.apply_atomic 2 3 2 1 ellFixtureCold 0 0 =
        2 * ellFixture.matvec ellFixtureLen 0 0 + 3 * ellFixtureCold 0 0) :=
  ⟨⟨by decide, by decide, by decide, by decide⟩,
    ell_apply_alpha_beta ellFixture ellFixtureLen (by decide) (by decide) 0 2 3
      ellFixtureCold 2 1 (by decide) (by decide)⟩

/-- C4 witness: the break/padding semantics at `ellFixture`, row 0,
column 0. -/
theorem ell_padding_sentinel_witness :
    (ellFixture.Valid ellFixtureLen ∧ (0 : Nat) < ellFixture.num_rows) ∧
    (ellFixture.spmv_simple 0 0 =
        ∑ i ∈ Finset.range (ellFixture.breakPos 0), ellFixture.term 0 0 i ∧
     (∀ i, i < ellFixture.breakPos 0 →
        ¬ (ellFixture.col (0 + i * ellFixture.stride) < i)) ∧
     (ellFixture.breakPos 0 < ellFixture.num_stored_elements_per_row →
        ellFixture.col (0 + ellFixture.breakPos 0 * ellFixture.stride) <
          ellFixture.breakPos 0) ∧
     ellFixture.spmv_simple 0 0 = ellFixture.matvec ellFixtureLen 0 0) :=
  ⟨⟨by decide, by decide⟩,
    ell_padding_sentinel ellFixture ellFixtureLen (by decide) (by decide) 0⟩

/-! ## Supporting lemmas: sizing vs. fill kernels -/

theorem ellFillWrites_length {V : Type} [Zero V] [DecidableEq V]
    (max_nnz_per_row stride : Nat) (values : Nat → V) (cols : Nat → Nat)
    (r : Nat) :
    (ellFillWrites max_nnz_per_row stride values cols r).length =
      count_nnz_per_row max_nnz_per_row stride values r := by
  unfold ellFillWrites count_nnz_per_row
  rw [List.length_map]
  congr 1
  apply List.filter_congr
  intro i _
  rw [Nat.add_comm r (stride * i)]

/-- C6: for the ELL→CSR conversion (`count_nnz_per_row` sizes,
`fill_in_csr` fills) and the Hybrid fill with the COO counting kernel
`count_coo_row_nnz`: the number of non-zero positions computed by the
sizing kernel for each row equals exactly the number of entries the fill
kernel writes for that row, every write of `fill_in_csr` lands inside
`[row_ptrs[r], row_ptrs[r+1])` and fills that interval completely when
`row_ptrs` prefix-scans the counts. -/
theorem sizing_matches_fill {V : Type} [Zero V] [DecidableEq V]
    (max_nnz_per_row stride : Nat) (values : Nat → V) (cols : Nat → Nat)
    (row_ptrs : Nat → Nat) (coo_val : Nat → V) (coo_col : Nat → Nat)
    (coo_row : Nat → Nat) (coo_offset : Nat → Nat) (nnz : Nat) (r : Nat)
    (hoff1 : coo_offset r ≤ coo_offset (r + 1))
    (hoff2 : coo_offset (r + 1) ≤ nnz)
    (hrow : ∀ ind, ind < nnz →
      (coo_row ind = r ↔ coo_offset r ≤ ind ∧ ind < coo_offset (r + 1)))
    (hrp : row_ptrs (r + 1) =
      row_ptrs r + count_nnz_per_row max_nnz_per_row stride values r) :
    (ellFillWrites max_nnz_per_row stride values cols r).length =
      count_nnz_per_row max_nnz_per_row stride values r ∧
    ellFillPositions max_nnz_per_row stride values cols row_ptrs r =
      List.range' (row_ptrs r) (row_ptrs (r + 1) - row_ptrs r) ∧
    (hybridFillWrites max_nnz_per_row stride values cols coo_val coo_col
        coo_offset r).length =
      count_nnz_per_row max_nnz_per_row stride values r +
        count_coo_row_nnz nnz coo_val coo_row r := by
  refine ⟨ellFillWrites_length max_nnz_per_row stride values cols r, ?_, ?_⟩
  · unfold ellFillPositions
    rw [ellFillWrites_length max_nnz_per_row stride values cols r]
    have hcnt : row_ptrs (r + 1) - row_ptrs r =
        count_nnz_per_row max_nnz_per_row stride values r := by omega
    rw [hcnt, List.range'_eq_map_range]
  · unfold hybridFillWrites
    rw [List.length_append,
      ellFillWrites_length max_nnz_per_row stride values cols r]
    congr 1
    rw [List.length_map]
    unfold count_coo_row_nnz
    have hsplit : List.range nnz =
        (List.range' 0 (coo_offset r) ++
          List.range' (coo_offset r) (coo_offset (r + 1) - coo_offset r)) ++
        List.range' (coo_offset (r + 1)) (nnz - coo_offset (r + 1)) := by
      have e1 : List.range' 0 (coo_offset r) ++
          List.range' (coo_offset r) (coo_offset (r + 1) - coo_offset r) =
          List.range' 0 (coo_offset (r + 1)) := by
        have := List.range'_append_1 0 (coo_offset r)
          (coo_offset (r + 1) - coo_offset r)
        rw [Nat.zero_add] at this
        rw [this]
        congr 1
        omega
      rw [e1]
      have e2 := List.range'_append_1 0 (coo_offset (r + 1))
        (nnz - coo_offset (r + 1))
      rw [Nat.zero_add] at e2
      rw [e2]
      have e3 : nnz - coo_offset (r + 1) + coo_offset (r + 1) = nnz := by omega
      rw [e3, List.range_eq_range']
    rw [hsplit, List.filter_append, List.filter_append, List.length_append,
      List.length_append]
    have hnil1 : (List.range' 0 (coo_offset r)).filter
        (fun ind => decide (coo_row ind = r ∧ coo_val ind ≠ 0)) = [] := by
      apply List.filter_eq_nil_iff.mpr
      intro ind hind
      have hmem := List.mem_range'_1.mp hind
      simp only [decide_eq_true_eq]
      rintro ⟨hr', -⟩
      have := (hrow ind (by omega)).mp hr'
      omega
    have hnil2 : (List.range' (coo_offset (r + 1))
        (nnz - coo_offset (r + 1))).filter
        (fun ind => decide (coo_row ind = r ∧ coo_val ind ≠ 0)) = [] := by
      apply List.filter_eq_nil_iff.mpr
      intro ind hind
      have hmem := List.mem_range'_1.mp hind
      simp only [decide_eq_true_eq]
      rintro ⟨hr', -⟩
      have := (hrow ind (by omega)).mp hr'
      omega
    rw [hnil1, hnil2]
    simp only [List.length_nil, Nat.zero_add, Nat.add_zero]
    congr 1
    apply List.filter_congr
    intro ind hind
    have hmem := List.mem_range'_1.mp hind
    have hr' : coo_row ind = r := (hrow ind (by omega)).mpr (by omega)
    simp [hr']

/-- C6 witness: ELL source [[1,0],[0,3]] (stride 2, width 2) with COO tail
(one extra entry in row 1), `row_ptrs = [0,1,2]`, `coo_offset = [0,0,1]`. -/
theorem sizing_matches_fill_witness :
    (List.getD [0, 0, 1] 0 0 ≤ List.getD [0, 0, 1] 1 0 ∧
     List.getD [0, 0, 1] 1 0 ≤ 1 ∧
     (∀ ind, ind < 1 →
       (List.getD [1] ind 0 = 0 ↔
         List.getD [0, 0, 1] 0 0 ≤ ind ∧ ind < List.getD [0, 0, 1] 1 0)) ∧
     List.getD [0, 1, 2] 1 0 = List.getD [0, 1, 2] 0 0 +
       count_nnz_per_row 2 2 (fun i => List.getD [(1 : Int), 0, 0, 3] i 0) 0) ∧
    ((ellFillWrites 2 2 (fun i => List.getD [(1 : Int), 0, 0, 3] i 0)
        (fun i => List.getD [0, 1, 1, 1] i 0) 0).length =
      count_nnz_per_row 2 2 (fun i => List.getD [(1 : Int), 0, 0, 3] i 0) 0 ∧
     ellFillPositions 2 2 (fun i => List.getD [(1 : Int), 0, 0, 3] i 0)
        (fun i => List.getD [0, 1, 1, 1] i 0)
        (fun i => List.getD [0, 1, 2] i 0) 0 =
      List.range' (List.getD [0, 1, 2] 0 0)
        (List.getD [0, 1, 2] 1 0 - List.getD [0, 1, 2] 0 0) ∧
     (hybridFillWrites 2 2 (fun i => List.getD [(1 : Int), 0, 0, 3] i 0)
        (fun i => List.getD [0, 1, 1, 1] i 0)
        (fun i => List.getD [(7 : Int)] i 0) (fun i => List.getD [1] i 0)
        (fun i => List.getD [0, 0, 1] i 0) 0).length =
      count_nnz_per_row 2 2 (fun i => List.getD [(1 : Int), 0, 0, 3] i 0) 0 +
        count_coo_row_nnz 1 (fun i => List.getD [(7 : Int)] i 0)
          (fun i => List.getD [1] i 0) 0) :=
  ⟨⟨by decide, by decide, by decide, by decide⟩,
    sizing_matches_fill 2 2 (fun i => List.getD [(1 : Int), 0, 0, 3] i 0)
      (fun i => List.getD [0, 1, 1, 1] i 0) (fun i => List.getD [0, 1, 2] i 0)
      (fun i => List.getD [(7 : Int)] i 0) (fun i => List.getD [1] i 0)
      (fun i => List.getD [1] i 0) (fun i => List.getD [0, 0, 1] i 0) 1 0
      (by decide) (by decide) (by decide) (by decide)⟩

/-! ## Supporting lemmas: distributed apply -/

theorem findPos_spec : ∀ {l : List Nat} {g pos : Nat},
    findPos l g = some pos → pos < l.length ∧ l.getD pos 0 = g := by
  intro l
  induction l with
  | nil => intro g pos h; simp [findPos] at h
  | cons x xs ih =>
    intro g pos h
    unfold findPos at h
    by_cases hx : x = g
    · rw [if_pos hx] at h
      have : pos = 0 := (Option.some.inj h).symm
      subst this
      exact ⟨by simp, hx⟩
    · rw [if_neg hx] at h
      cases hfp : findPos xs g with
      | none => rw [hfp] at h; simp at h
      | some q =>
        rw [hfp] at h
        simp only [Option.map_some', Option.some.injEq] at h
        obtain ⟨h1, h2⟩ := ih hfp
        subst h
        refine ⟨by simp; omega, ?_⟩
        rw [List.getD_cons_succ]
        exact h2

theorem findPos_eq_none : ∀ {l : List Nat} {g : Nat},
    findPos l g = none ↔ g ∉ l := by
  intro l
  induction l with
  | nil => intro g; simp [findPos]
  | cons x xs ih =>
    intro g
    unfold findPos
    by_cases hx : x = g
    · rw [if_pos hx]
      simp [hx]
    · rw [if_neg hx]
      constructor
      · intro h hmem
        rcases List.mem_cons.mp hmem with rfl | hmem'
        · exact hx rfl
        · exact (ih.mp (by
            cases hfp : findPos xs g with
            | none => rfl
            | some q => rw [hfp] at h; simp at h)) hmem'
      · intro h
        have hg : g ∉ xs := fun hmem => h (List.mem_cons_of_mem _ hmem)
        rw [ih.mpr hg]
        rfl

theorem gather_on_all_eq {V : Type} [Zero V] (bglob : Nat → Nat → V) :
    ∀ (parts : List (DistPart V)) (g c : Nat),
      (∀ q ∈ parts, ∀ pos, pos < q.own_rows.length → ∀ c',
        q.vals pos c' = bglob (q.own_rows.getD pos 0) c') →
      (∃ q ∈ parts, g ∈ q.own_rows) →
      gather_on_all parts g c = bglob g c := by
  intro parts
  induction parts with
  | nil => intro g c _ hcov; simp at hcov
  | cons p ps ih =>
    intro g c hparts hcov
    show (match findPos p.own_rows g with
      | some pos => p.vals pos c
      | none => gather_on_all ps g c) = bglob g c
    cases hfp : findPos p.own_rows g with
    | some pos =>
      obtain ⟨hlt, hget⟩ := findPos_spec hfp
      show p.vals pos c = bglob g c
      rw [hparts p (List.mem_cons_self _ _) pos hlt c, hget]
    | none =>
      show gather_on_all ps g c = bglob g c
      have hg : g ∉ p.own_rows := findPos_eq_none.mp hfp
      obtain ⟨q, hq, hgq⟩ := hcov
      rcases List.mem_cons.mp hq with rfl | hq'
      · exact absurd hgq hg
      · exact ih g c (fun q' hq'' => hparts q' (List.mem_cons_of_mem _ hq''))
          ⟨q, hq', hgq⟩

/-- C7: `distributed_apply_impl` computes the local product directly when
`b` is replicated (`b.size == b.global_size`), and otherwise gathers `b`
across all ranks (`gather_on_all`) into the full vector before the local
multiply; in both cases the rank's result at each owned row equals the
corresponding row of the single-process product, so `x` stays
row-partitioned. -/
theorem distributed_apply_partitioned_product {V : Type}
    [NonUnitalNonAssocSemiring V] (localA : Nat → Nat → V) (ownA : List Nat)
    (globalA : Nat → Nat → V) (bglob : Nat → Nat → V) (K : Nat)
    (b : DistPart V) (global_rows : Nat) (parts : List (DistPart V))
    (hA : ∀ p, p < ownA.length → ∀ k, localA p k = globalA (ownA.getD p 0) k)
    (hparts : ∀ q ∈ parts, ∀ pos, pos < q.own_rows.length → ∀ c,
      q.vals pos c = bglob (q.own_rows.getD pos 0) c)
    (hcov : ∀ g, g < K → ∃ q ∈ parts, g ∈ q.own_rows)
    (hrep : b.own_rows.length = global_rows →
      ∀ k, k < K → ∀ c, b.vals k c = bglob k c)
    {p : Nat} (hp : p < ownA.length) (c : Nat) :
    distributed_apply_impl localA K b global_rows parts p c =
      ∑ k ∈ Finset.range K, globalA (ownA.getD p 0) k * bglob k c := by
  unfold distributed_apply_impl
  by_cases hflag : b.own_rows.length = global_rows
  · rw [if_pos hflag]
    unfold localApply
    apply Finset.sum_congr rfl
    intro k hk
    rw [hA p hp k, hrep hflag k (Finset.mem_range.mp hk) c]
  · rw [if_neg hflag]
    unfold localApply
    apply Finset.sum_congr rfl
    intro k hk
    rw [hA p hp k,
      gather_on_all_eq bglob parts k c hparts (hcov k (Finset.mem_range.mp hk))]

/-- C7 witness: rank 1 of a two-rank partition of the 2×2 system
[[1,2],[3,4]]·(10,20)ᵀ with a distributed (non-replicated) right-hand
side; the rank's single local row equals row 1 of the global product. -/
theorem distributed_apply_partitioned_product_witness :
    ((∀ p, p < [1].length → ∀ k,
        localAFixture p k = globalAFixture ([1].getD p 0) k) ∧
     (∀ q ∈ partsFixture, ∀ pos, pos < q.own_rows.length → ∀ c,
        q.vals pos c = bglobFixture (q.own_rows.getD pos 0) c) ∧
     (∀ g, g < 2 → ∃ q ∈ partsFixture, g ∈ q.own_rows) ∧
     (0 : Nat) < [1].length) ∧
    distributed_apply_impl localAFixture 2 bPartFixture 2 partsFixture 0 0 =
      ∑ k ∈ Finset.range 2, globalAFixture ([1].getD 0 0) k * bglobFixture k 0 :=
  ⟨⟨fun p _ k => rfl,
    by
      intro q hq pos hpos c
      rcases List.mem_cons.mp hq with rfl | hq'
      · have : pos = 0 := by simpa using hpos
        subst this
        rfl
      · rcases List.mem_cons.mp hq' with rfl | hq''
        · have : pos = 0 := by simpa using hpos
          subst this
          rfl
        · simp at hq'',
    by
      intro g hg
      interval_cases g
      · exact ⟨_, List.mem_cons_self _ _, by decide⟩
      · exact ⟨_, List.mem_cons_of_mem _ (List.mem_cons_self _ _), by decide⟩,
    by decide⟩,
   distributed_apply_partitioned_product localAFixture [1] globalAFixture
     bglobFixture 2 bPartFixture 2 partsFixture (fun p _ k => rfl)
     (by
       intro q hq pos hpos c
       rcases List.mem_cons.mp hq with rfl | hq'
       · have : pos = 0 := by simpa using hpos
         subst this
         rfl
       · rcases List.mem_cons.mp hq' with rfl | hq''
         · have : pos = 0 := by simpa using hpos
           subst this
           rfl
         · simp at hq'')
     (by
       intro g hg
       interval_cases g
       · exact ⟨_, List.mem_cons_self _ _, by decide⟩
       · exact ⟨_, List.mem_cons_of_mem _ (List.mem_cons_self _ _), by decide⟩)
     (fun h => absurd h (by decide)) (by decide) 0⟩

/-! ## Supporting lemmas: device-reset bookkeeping -/

theorem foldl_creates : ∀ (cs : List (Nat × Bool)) (s : DeviceState),
    (cs.map (fun p => ExecEvent.create p.1 p.2)).foldl stepEvent s =
      ⟨cs.reverse ++ s.live, s.fires⟩ := by
  intro cs
  induction cs with
  | nil => intro s; rfl
  | cons p cs ih =>
    intro s
    show (cs.map (fun p => ExecEvent.create p.1 p.2)).foldl stepEvent
      ⟨(p.1, p.2) :: s.live, s.fires⟩ = _
    rw [ih]
    have : cs.reverse ++ (p.1, p.2) :: s.live = (p :: cs).reverse ++ s.live := by
      simp
    rw [this]

theorem foldl_destroys : ∀ (ds : List Nat) (live : List (Nat × Bool)) (n : Nat),
    (ds.map ExecEvent.destroy).foldl stepEvent ⟨live, n⟩ =
      ⟨destroyLive live ds, n + destroyFires live ds⟩ := by
  intro ds
  induction ds with
  | nil => intro live n; show DeviceState.mk live n = _; rw [destroyFires]; rfl
  | cons d ds ih =>
    intro live n
    show (ds.map ExecEvent.destroy).foldl stepEvent
      ⟨live.filter (fun q => q.1 ≠ d),
        n + if (live.filter (fun q => q.1 ≠ d)).isEmpty &&
          ((live.find? (fun p => p.1 = d)).map Prod.snd).getD false
          then 1 else 0⟩ = _
    rw [ih]
    show DeviceState.mk _ _ = DeviceState.mk _ _
    congr 1
    rw [destroyFires]
    omega

theorem filter_key_map_fst (live : List (Nat × Bool)) (d : Nat) :
    (live.filter (fun q => q.1 ≠ d)).map Prod.fst =
      (live.map Prod.fst).filter (fun x => x ≠ d) := by
  induction live with
  | nil => rfl
  | cons q t ih =>
    rw [List.map_cons, List.filter_cons, List.filter_cons]
    by_cases hq : q.1 = d
    · rw [if_neg (by simp [hq]), if_neg (by simp [hq])]
      exact ih
    · rw [if_pos (by simp [hq]), if_pos (by simp [hq]), List.map_cons, ih]

theorem filter_key_length {live : List (Nat × Bool)} {d : Nat}
    (hn : (live.map Prod.fst).Nodup) (hd : d ∈ live.map Prod.fst) :
    (live.filter (fun q => q.1 ≠ d)).length + 1 = live.length := by
  induction live with
  | nil => simp at hd
  | cons q t ih =>
    rw [List.map_cons] at hd hn
    rw [List.filter_cons]
    by_cases hq : q.1 = d
    · have : ¬ (decide (q.1 ≠ d) = true) := by simp [hq]
      rw [if_neg this]
      have hnot : d ∉ t.map Prod.fst := by
        rw [← hq]
        exact (List.nodup_cons.mp hn).1
      have : t.filter (fun q => q.1 ≠ d) = t := by
        apply List.filter_eq_self.mpr
        intro a ha
        simp only [ne_eq, decide_eq_true_eq]
        intro haq
        exact hnot (haq ▸ List.mem_map_of_mem _ ha)
      rw [this]
      simp
    · have : decide (q.1 ≠ d) = true := by simp [hq]
      rw [if_pos this]
      rcases List.mem_cons.mp hd with rfl | hd'
      · exact absurd rfl hq
      · have := ih (List.nodup_cons.mp hn).2 hd'
        simp only [List.length_cons]
        omega

theorem flagOf_filter {live : List (Nat × Bool)} {d x : Nat} (hx : x ≠ d) :
    flagOf (live.filter (fun q => q.1 ≠ d)) x = flagOf live x := by
  induction live with
  | nil => rfl
  | cons q t ih =>
    rw [List.filter_cons]
    by_cases hq : q.1 = d
    · rw [if_neg (by simp [hq])]
      have hqx : ¬ ((fun p : Nat × Bool => decide (p.1 = x)) q = true) := by
        simp only [decide_eq_true_eq]
        rw [hq]
        exact fun h => hx h.symm
      have hfind : flagOf (q :: t) x = flagOf t x := by
        unfold flagOf
        rw [List.find?_cons_of_neg t hqx]
      rw [hfind]
      exact ih
    · rw [if_pos (by simp [hq])]
      by_cases hqx : q.1 = x
      · have hp : ((fun p : Nat × Bool => decide (p.1 = x)) q = true) := by
          simp [hqx]
        have e1 : (q :: t).find? (fun p => decide (p.1 = x)) = some q :=
          List.find?_cons_of_pos t hp
        have e2 : (q :: t.filter (fun q => decide (q.1 ≠ d))).find?
            (fun p => decide (p.1 = x)) = some q :=
          List.find?_cons_of_pos _ hp
        unfold flagOf
        rw [e1, e2]
      · have hp : ¬ ((fun p : Nat × Bool => decide (p.1 = x)) q = true) := by
          simp [hqx]
        have e1 : (q :: t).find? (fun p => decide (p.1 = x)) =
            t.find? (fun p => decide (p.1 = x)) :=
          List.find?_cons_of_neg t hp
        have e2 : (q :: t.filter (fun q => decide (q.1 ≠ d))).find?
            (fun p => decide (p.1 = x)) =
            (t.filter (fun q => decide (q.1 ≠ d))).find?
              (fun p => decide (p.1 = x)) :=
          List.find?_cons_of_neg _ hp
        unfold flagOf at ih ⊢
        rw [e1, e2]
        exact ih

theorem destroyFires_last : ∀ (ds : List Nat) (live : List (Nat × Bool))
    (d : Nat), (live.map Prod.fst).Nodup → (ds ++ [d]).Nodup →
    (∀ x ∈ ds ++ [d], x ∈ live.map Prod.fst) →
    (ds ++ [d]).length = live.length →
    destroyFires live (ds ++ [d]) = (if flagOf live d then 1 else 0) ∧
    destroyFires live ds = 0 := by
  intro ds
  induction ds with
  | nil =>
    intro live d hn hnd hmem hlen
    simp only [List.nil_append, List.length_cons, List.length_nil] at hlen
    obtain ⟨q, hq⟩ : ∃ q, live = [q] := by
      cases live with
      | nil => simp at hlen
      | cons q t =>
        cases t with
        | nil => exact ⟨q, rfl⟩
        | cons q' t' => simp at hlen
    subst hq
    obtain ⟨qid, qf⟩ := q
    have hqd : qid = d := by
      have := hmem d (List.mem_singleton_self _)
      simp at this
      omega
    subst hqd
    constructor
    · show (if (([(qid, qf)].filter (fun p => p.1 ≠ qid)).isEmpty &&
          ((([(qid, qf)].find? (fun p => p.1 = qid))).map Prod.snd).getD false)
          then 1 else 0) +
        destroyFires ([(qid, qf)].filter (fun p => p.1 ≠ qid)) [] =
        (if flagOf [(qid, qf)] qid then 1 else 0)
      have hfilter : ([(qid, qf)].filter (fun p => p.1 ≠ qid)) = [] := by
        rw [List.filter_cons, if_neg (by simp)]
        rfl
      have hfind : [(qid, qf)].find? (fun p => p.1 = qid) = some (qid, qf) :=
        List.find?_cons_of_pos _ (by simp)
      rw [hfilter, hfind]
      unfold flagOf
      rw [hfind]
      show (if (true && qf) then 1 else 0) + 0 = (if qf then 1 else 0)
      cases qf <;> rfl
    · rfl
  | cons e ds ih =>
    intro live d hn hnd hmem hlen
    have hemem : e ∈ live.map Prod.fst := hmem e (by simp)
    have hlive' := filter_key_length hn hemem
    have hlen2 : 2 ≤ live.length := by
      simp only [List.cons_append, List.length_cons, List.length_append,
        List.length_cons, List.length_nil] at hlen
      omega
    have hne : ¬ (live.filter (fun q => q.1 ≠ e)).isEmpty = true := by
      rw [List.isEmpty_iff_length_eq_zero]
      omega
    have hinc : (if (live.filter (fun q => q.1 ≠ e)).isEmpty &&
        ((live.find? (fun p => p.1 = e)).map Prod.snd).getD false
        then 1 else 0) = 0 := by
      have hfalse : ((live.filter (fun q => q.1 ≠ e)).isEmpty &&
          ((live.find? (fun p => p.1 = e)).map Prod.snd).getD false) = false := by
        cases hh : (live.filter (fun q => q.1 ≠ e)).isEmpty with
        | false => rfl
        | true => exact absurd hh hne
      rw [hfalse]
      rfl
    have hn' : ((live.filter (fun q => q.1 ≠ e)).map Prod.fst).Nodup := by
      rw [filter_key_map_fst]
      exact hn.filter _
    obtain ⟨henot, hnd'⟩ := List.nodup_cons.mp hnd
    have hmem' : ∀ x ∈ ds ++ [d],
        x ∈ (live.filter (fun q => q.1 ≠ e)).map Prod.fst := by
      intro x hx
      have hxl := hmem x (List.mem_cons_of_mem _ hx)
      have hxe : x ≠ e := fun h => henot (h ▸ hx)
      rw [filter_key_map_fst, List.mem_filter]
      exact ⟨hxl, by simp [hxe]⟩
    have hlen' : (ds ++ [d]).length = (live.filter (fun q => q.1 ≠ e)).length := by
      simp only [List.cons_append, List.length_cons, List.length_append,
        List.length_nil] at hlen ⊢
      omega
    obtain ⟨ih1, ih2⟩ := ih (live.filter (fun q => q.1 ≠ e)) d hn' hnd' hmem'
      hlen'
    have hdne : d ≠ e := fun h => henot (h ▸ List.mem_append_right ds
      (List.mem_singleton_self d))
    constructor
    · show destroyFires live (e :: (ds ++ [d])) = _
      show (if (live.filter (fun q => q.1 ≠ e)).isEmpty &&
          ((live.find? (fun p => p.1 = e)).map Prod.snd).getD false
          then 1 else 0) + destroyFires (live.filter (fun q => q.1 ≠ e))
            (ds ++ [d]) = _
      rw [hinc, ih1, flagOf_filter hdne, Nat.zero_add]
    · show (if (live.filter (fun q => q.1 ≠ e)).isEmpty &&
          ((live.find? (fun p => p.1 = e)).map Prod.snd).getD false
          then 1 else 0) + destroyFires (live.filter (fun q => q.1 ≠ e)) ds = 0
      rw [hinc, ih2]

/-- C8 counterexample: on the trace create(0, reset-on-last = true);
create(1, reset-on-last = false); destroy(0); destroy(1), an executor on
the device was created with reset-on-last enabled and every executor is
destroyed, yet the reset callback never fires — the flag of the executor
destroyed first has no effect (cf. the in-source contract,
`src/unnamed/part_001:696-700`). -/
theorem device_reset_counterexample :
    (runTrace [ExecEvent.create 0 true, ExecEvent.create 1 false,
      ExecEvent.destroy 0, ExecEvent.destroy 1]).fires = 0 ∧
    (runTrace [ExecEvent.create 0 true, ExecEvent.create 1 false,
      ExecEvent.destroy 0, ExecEvent.destroy 1]).live = [] ∧
    ExecEvent.create 0 true ∈ [ExecEvent.create 0 true,
      ExecEvent.create 1 false, ExecEvent.destroy 0, ExecEvent.destroy 1] := by
  refine ⟨rfl, rfl, ?_⟩
  exact List.mem_cons_self _ _

/-- C8 (amended): for a trace that constructs executors `cs` (distinct
device-local ids) and then destroys all of them (`ds ++ [d]`, a
permutation of the ids), the reset callback fires exactly once if and only
if the executor destroyed last carries the `device_reset_` flag — flags on
executors destroyed earlier have no effect — and it never fires while an
executor is still live: the fire count is still 0 after all but the last
destruction. -/
theorem device_reset_fires_iff_last_flag (cs : List (Nat × Bool))
    (ds : List Nat) (d : Nat) (h1 : (cs.map Prod.fst).Nodup)
    (h2 : (ds ++ [d]).Nodup) (h3 : ∀ x ∈ ds ++ [d], x ∈ cs.map Prod.fst)
    (h4 : (ds ++ [d]).length = cs.length) :
    (runTrace (cs.map (fun p => ExecEvent.create p.1 p.2) ++
        (ds ++ [d]).map ExecEvent.destroy)).fires =
      (if flagOf cs.reverse d then 1 else 0) ∧
    (runTrace (cs.map (fun p => ExecEvent.create p.1 p.2) ++
        ds.map ExecEvent.destroy)).fires = 0 := by
  have hrevn : (cs.reverse.map Prod.fst).Nodup := by
    rw [List.map_reverse]
    exact List.nodup_reverse.mpr h1
  have hrevm : ∀ x ∈ ds ++ [d], x ∈ cs.reverse.map Prod.fst := by
    intro x hx
    rw [List.map_reverse, List.mem_reverse]
    exact h3 x hx
  have hrevl : (ds ++ [d]).length = cs.reverse.length := by
    rw [List.length_reverse]
    exact h4
  obtain ⟨k1, k2⟩ := destroyFires_last ds cs.reverse d hrevn h2 hrevm hrevl
  constructor
  · rw [runTrace, List.foldl_append, foldl_creates cs ⟨[], 0⟩]
    have : (DeviceState.mk (cs.reverse ++ []) 0) =
        DeviceState.mk cs.reverse 0 := by
      rw [List.append_nil]
    rw [this, foldl_destroys (ds ++ [d]) cs.reverse 0, k1]
    show 0 + (if flagOf cs.reverse d then 1 else 0) = _
    rw [Nat.zero_add]
  · rw [runTrace, List.foldl_append, foldl_creates cs ⟨[], 0⟩]
    have : (DeviceState.mk (cs.reverse ++ []) 0) =
        DeviceState.mk cs.reverse 0 := by
      rw [List.append_nil]
    rw [this, foldl_destroys ds cs.reverse 0, k2]

/-- C8 witness: executors 0 (flag false) and 1 (flag true) created in that
order, destroyed in order 0 then 1: the callback fires exactly once (the
last-destroyed executor carries the flag), and had not fired before the
last destruction. -/
theorem device_reset_fires_iff_last_flag_witness :
    (([(0, false), (1, true)].map (Prod.fst (α := Nat) (β := Bool))).Nodup ∧
     ([0] ++ [1] : List Nat).Nodup ∧
     (∀ x ∈ ([0] ++ [1] : List Nat),
        x ∈ [(0, false), (1, true)].map Prod.fst) ∧
     ([0] ++ [1] : List Nat).length = [(0, false), (1, true)].length) ∧
    ((runTrace ([(0, false), (1, true)].map
        (fun p => ExecEvent.create p.1 p.2) ++
        ([0] ++ [1]).map ExecEvent.destroy)).fires =
      (if flagOf [(0, false), (1, true)].reverse 1 then 1 else 0) ∧
     (runTrace ([(0, false), (1, true)].map
        (fun p => ExecEvent.create p.1 p.2) ++
        [0].map ExecEvent.destroy)).fires = 0) :=
  ⟨⟨by decide, by decide, by decide, by decide⟩,
    device_reset_fires_iff_last_flag [(0, false), (1, true)] [0] 1
      (by decide) (by decide) (by decide) (by decide)⟩

/-- C9: `distributed_create` succeeds (constructing the empty distributed
matrix) on an MPI executor and raises `NotSupported` on every other
executor kind; on error the result carries no constructed object. -/
theorem distributed_create_requires_mpi :
    distributed_create ExecKind.mpi = Except.ok ⟨ExecKind.mpi⟩ ∧
    ∀ k, k ≠ ExecKind.mpi →
      distributed_create k = Except.error GkoError.notSupported := by
  constructor
  · rfl
  · intro k hk
    unfold distributed_create
    rw [if_neg hk]

/-- C9 witness: `distributed_create` on a CUDA executor raises
`NotSupported`. -/
theorem distributed_create_requires_mpi_witness :
    ExecKind.cuda ≠ ExecKind.mpi ∧
    distributed_create ExecKind.cuda = Except.error GkoError.notSupported :=
  ⟨by decide, distributed_create_requires_mpi.2 ExecKind.cuda (by decide)⟩

end Gko
